import Mathlib

/-!
Verification of the freelist, page and node layers of the bolt-rust
repository (a Rust port of the bolt embedded key/value store).

The Rust sources under `src/` are shallowly embedded: `u64`/`usize`
arithmetic (page ids `pgid_t`, transaction ids `txid_t`, sizes) is
modelled on `Nat` (no modelled code path overflows 64 bits
on the inputs considered), `HashMap` as an insertion-ordered association
list, `HashSet` as a duplicate-free list, and panicking code paths return
`none`.
-/

namespace BoltRust

/-- `FreeList` (src/freelist.rs): `ids` are the free page ids, `pending`
maps a transaction id to its soon-to-be-free page ids (`HashMap` modelled
as an insertion-ordered association list), `cache` is the membership set
over all free and pending ids (`HashSet` modelled as a list without
duplicates). -/
structure FreeList where
  ids : List Nat
  pending : List (Nat × List Nat)
  cache : List Nat
deriving Repr, DecidableEq

/-- `HashSet::contains`. -/
def setContains (s : List Nat) (x : Nat) : Bool :=
  s.contains x

/-- `HashSet::insert`. -/
def setInsert (s : List Nat) (x : Nat) : List Nat :=
  if s.contains x then s else s ++ [x]

/-- `HashSet::remove`. -/
def setRemove (s : List Nat) (x : Nat) : List Nat :=
  s.filter (fun y => y ≠ x)

/-- The scan loop of `FreeList::allocate` (src/freelist.rs lines 72-93).
`i` is the loop index, `initial` the start of the current consecutive run
and `previd` the previously visited id (`0` before the first iteration).
`none` models the `panic!("invalid page allocation")` on an id `≤ 1`;
`some none` means the loop finished without finding a run; on success
`some (some (i, initial))` returns the break index and the run start. -/
def allocateScan (n : Nat) : List Nat → Nat → Nat → Nat → Option (Option (Nat × Nat))
  | [], _, _, _ => some none
  | id :: rest, i, initial, previd =>
    if id ≤ 1 then none
    else
      let initial' := if previd = 0 || id - previd ≠ 1 then id else initial
      if id - initial' + 1 = n then some (some (i, initial'))
      else allocateScan n rest (i + 1) initial' id

/-- `FreeList::allocate` (src/freelist.rs lines 67-116).  Returns the
allocated starting page id (`0` on failure) together with the updated
freelist; `none` models a panic.  Note that the cache-removal loop of the
source iterates `for i in 0..n` and calls `self.cache.remove(&i)`, which
removes the page ids `0, 1, …, n-1` from the cache rather than the
allocated run. -/
def FreeList.allocate (f : FreeList) (n : Nat) : Option (Nat × FreeList) :=
  if f.ids.length = 0 then some (0, f)
  else
    match allocateScan n f.ids 0 0 0 with
    | none => none
    | some none => some (0, f)
    | some (some (idx, initial)) =>
      let ids' :=
        if idx + 1 = n then f.ids.drop (idx + 1)
        else f.ids.take (idx - n + 1) ++ f.ids.drop (idx + 1)
      let cache' := (List.range n).foldl (fun c i => setRemove c i) f.cache
      some (initial, { f with ids := ids', cache := cache' })

/-- `pending.get(txid)` on the association-list model of the `HashMap`. -/
def pendingLookup (p : List (Nat × List Nat)) (t : Nat) : Option (List Nat) :=
  match p.find? (fun e => e.1 = t) with
  | some e => some e.2
  | none => none

/-- Replacing the value stored under key `t`. -/
def pendingUpdate (p : List (Nat × List Nat)) (t : Nat) (v : List Nat) :
    List (Nat × List Nat) :=
  p.map (fun e => if e.1 = t then (t, v) else e)

/-- The per-page loop of `FreeList::free` (src/freelist.rs lines 134-143):
every id of the run is checked against the cache (`none` models the
double-free panic), pushed onto the pending vector `acc` and inserted
into the cache. -/
def freeLoop : List Nat → List Nat → List Nat → Option (List Nat × List Nat)
  | [], cache, acc => some (acc, cache)
  | id :: rest, cache, acc =>
    if setContains cache id then none
    else freeLoop rest (setInsert cache id) (acc ++ [id])

/-- The `if !self.pending.contains_key(&txid) { insert empty }` step of
`FreeList::free`. -/
def freePending0 (f : FreeList) (txid : Nat) : List (Nat × List Nat) :=
  if (pendingLookup f.pending txid).isSome then f.pending
  else f.pending ++ [(txid, [])]

/-- `FreeList::free` (src/freelist.rs lines 120-146) for a page with id
`pgid` and overflow count `overflow` (the loop runs over
`pgid..pgid + 1 + overflow`).  `none` models the panic on `pgid ≤ 1`
and the double-free panic. -/
def FreeList.free (f : FreeList) (txid : Nat) (pgid : Nat) (overflow : Nat) :
    Option FreeList :=
  if pgid ≤ 1 then none
  else
    match freeLoop (List.range' pgid (pgid + 1 + overflow - pgid)) f.cache
        ((pendingLookup (freePending0 f txid) txid).getD []) with
    | none => none
    | some (acc', cache') =>
      some { f with pending := pendingUpdate (freePending0 f txid) txid acc',
                    cache := cache' }

/-- The insertion step of the insertion sort modelling `Vec::sort`. -/
def insertSorted (x : Nat) : List Nat → List Nat
  | [] => [x]
  | y :: ys => if x ≤ y then x :: y :: ys else y :: insertSorted x ys

/-- `Vec::sort` on page ids modelled as an insertion sort (a stable sort;
on `Nat` any comparison sort produces the same list). -/
def sortNats (l : List Nat) : List Nat :=
  l.foldr insertSorted []

/-- One comparison of `u64` values as performed by `Ord::cmp`. -/
def rustCmpNat (a b : Nat) : Ordering :=
  if a < b then .lt else if a = b then .eq else .gt

/-- The probe loop of Rust `slice::binary_search_by`: while `size > 1`
halve the window `[base, base+size)`, then classify at `base`.  `f i`
is the comparison of element `i` against the target.  `.inl` models
`Ok`, `.inr` models `Err`.  The structural `fuel` argument dominates the
iteration count; the callers pass `fuel = size`, which always suffices
because `size` strictly decreases and the loop stops at `size = 1`. -/
def bsearchLoop (f : Nat → Ordering) : Nat → Nat → Nat → Sum Nat Nat
  | 0, base, _size => .inr base
  | fuel + 1, base, size =>
    if size ≤ 1 then
      match f base with
      | .eq => .inl base
      | .lt => .inr (base + 1)
      | .gt => .inr base
    else
      let half := size / 2
      let mid := base + half
      bsearchLoop f fuel (if f mid = .gt then base else mid) (size - half)

/-- Rust `slice::binary_search_by` over a slice of length `len` with the
comparison `f`. -/
def rustBinarySearchBy (len : Nat) (f : Nat → Ordering) : Sum Nat Nat :=
  if len = 0 then .inr 0 else bsearchLoop f len 0 len

/-- The result index of `binary_search` as consumed by `merge_pgids`
(`Ok(nn) | Err(nn) => nn`). -/
def searchIndex : Sum Nat Nat → Nat
  | .inl nn => nn
  | .inr nn => nn

/-- The `while lead.len() > 0` loop of `merge_pgids` (src/page.rs lines
193-210) followed by the trailing `dst.append(follow)`.  The `fuel`
argument bounds the iteration count (the Rust loop can fail to terminate
on non-disjoint inputs, which `none` models); `none` also models the
out-of-bounds `follow[0]` access. -/
def mergeLoop : Nat → List Nat → List Nat → List Nat → Option (List Nat)
  | 0, _, _, _ => none
  | fuel + 1, lead, follow, dst =>
    if lead.isEmpty then some (dst ++ follow)
    else
      match follow with
      | [] => none
      | f0 :: _ =>
        let n := searchIndex (rustBinarySearchBy lead.length
          (fun i => rustCmpNat (lead.getD i 0) f0))
        if lead.length ≤ n then some (dst ++ lead.take n ++ follow)
        else mergeLoop fuel follow (lead.drop n) (dst ++ lead.take n)

/-- `merge_pgids` (src/page.rs lines 167-215).  `cap` models
`dst.capacity()`; the function fills an empty pre-sized vector.  `none`
models a panic: the capacity check, or the `b[0]` / `a[0]` indexing that
the source reaches even when `a` or `b` is empty, because the two
empty-input branches copy the empty slice itself (not the opposite one)
and do not return. -/
def mergeNats (cap : Nat) (a b : List Nat) : Option (List Nat) :=
  if cap < a.length + b.length then none
  else
    let dst0 : List Nat := if a.isEmpty then [] ++ a else []
    let dst1 : List Nat := if b.isEmpty then dst0 ++ b else dst0
    match b, a with
    | [], _ => none
    | _ :: _, [] => none
    | b0 :: _, a0 :: _ =>
      let lf := if b0 < a0 then (b, a) else (a, b)
      mergeLoop (a.length + b.length + 1) lf.1 lf.2 dst1

/-- `FreeList::release` (src/freelist.rs lines 149-163): drain every
pending entry with `tid ≤ txid` (the `retain` keeps the entries with
`tid > txid`), sort the drained ids and merge them into `ids` through
`merge_pgids`.  `none` models a panic inside `merge_pgids`. -/
def FreeList.release (f : FreeList) (txid : Nat) : Option FreeList :=
  let m := (f.pending.filter (fun e => e.1 ≤ txid)).foldl (fun acc e => acc ++ e.2) []
  let pending' := f.pending.filter (fun e => ¬ e.1 ≤ txid)
  let msorted := sortNats m
  match mergeNats (f.ids.length + msorted.length) f.ids msorted with
  | none => none
  | some newIds => some { f with ids := newIds, pending := pending' }

/-- `get_page_header_size()` (src/page.rs): `offset_of!(Page, ptr)`; the
packed header `id: u64, flags: u16, count: u16, overflow: u32` is 16
bytes (asserted by the repository's `offset_of_works` test). -/
def pageHeaderSize : Nat := 16

/-- `mem::size_of::<LeafPageElement>()`: four packed `u32` fields. -/
def LEAF_PAGE_ELEMENT_SIZE : Nat := 16

/-- `mem::size_of::<BranchPageElement>()`: two packed `u32` and a `u64`. -/
def BRANCH_PAGE_ELEMENT_SIZE : Nat := 16

/-- `page::MIN_KEYS_PER_PAGE`. -/
def MIN_KEYS_PER_PAGE : Nat := 2

/-- `page::LEAF_PAGE_FLAG`. -/
def LEAF_PAGE_FLAG : Nat := 0x02

/-- `page::BRANCH_PAGE_FLAG`. -/
def BRANCH_PAGE_FLAG : Nat := 0x01

/-- `INode` (src/node.rs): keys and values are `&str` slices, modelled as
character lists (on UTF-8 strings, byte order and code-point order
agree, and `str::len` is the list length for the ASCII data considered
here). -/
structure INode where
  flags : Nat
  pgid : Nat
  key : List Char
  value : Option (List Char)
deriving Repr, DecidableEq, Inhabited

/-- `INode::new()`. -/
def INode.new : INode :=
  { flags := 0, pgid := 0, key := [], value := none }

/-- The fields of `Node` (src/node.rs) used by the sizing, search,
serialization and split code.  `hasParent` models `parent.is_some()`. -/
structure RNode where
  isLeaf : Bool
  inodes : List INode
  key : List Char
  pgid : Nat
  hasParent : Bool
deriving Repr, DecidableEq, Inhabited

/-- Length of an optional value, `None` counting as `0`. -/
def valLen : Option (List Char) → Nat
  | none => 0
  | some v => v.length

/-- The size contribution of one inode to a node with element size
`elsz`: `elsz + key.len() + value.len()`. -/
def inodeSize (elsz : Nat) (e : INode) : Nat :=
  elsz + e.key.length + valLen e.value

/-- `Node::page_element_size` (src/node.rs lines 96-102). -/
def RNode.pageElementSize (n : RNode) : Nat :=
  if n.isLeaf then LEAF_PAGE_ELEMENT_SIZE else BRANCH_PAGE_ELEMENT_SIZE

/-- `Node::size` (src/node.rs lines 66-76). -/
def RNode.size (n : RNode) : Nat :=
  n.inodes.foldl
    (fun sz inode => sz + n.pageElementSize + inode.key.length + valLen inode.value)
    pageHeaderSize

/-- The loop of `Node::size_less_than` with accumulated size `sz`:
returns `false` as soon as the running size reaches `v`. -/
def sltLoop (elsz v : Nat) : List INode → Nat → Bool
  | [], _ => true
  | inode :: rest, sz =>
    let sz' := sz + elsz + inode.key.length + valLen inode.value
    if v ≤ sz' then false else sltLoop elsz v rest sz'

/-- `Node::size_less_than` (src/node.rs lines 81-94). -/
def RNode.sizeLessThan (n : RNode) (v : Nat) : Bool :=
  sltLoop n.pageElementSize v n.inodes pageHeaderSize

/-- `Ord::cmp` on characters (code points; equal to byte order inside
UTF-8 data). -/
def cmpChar (a b : Char) : Ordering :=
  if a < b then .lt else if a = b then .eq else .gt

/-- `str::cmp`: lexicographic comparison. -/
def cmpKey : List Char → List Char → Ordering
  | [], [] => .eq
  | [], _ :: _ => .lt
  | _ :: _, [] => .gt
  | x :: xs, y :: ys =>
    match cmpChar x y with
    | .eq => cmpKey xs ys
    | o => o

/-- `Node::put` (src/node.rs lines 211-249).  `metaNat` models the
high-water mark `tx.meta.pgid`; `none` models the panic when
`pgid > meta.pgid` and the zero-length-key panics.  The binary search
is `inodes.binary_search_by(|inode| inode.key.cmp(old_key))`; an `Err`
result inserts `INode::new()` at the returned index, then the entry at
the index is overwritten in place. -/
def RNode.put (n : RNode) (metaNat : Nat) (oldKey newKey : List Char)
    (value : Option (List Char)) (pgid : Nat) (flags : Nat) : Option RNode :=
  if metaNat < pgid then none
  else if oldKey.length = 0 then none
  else if newKey.length = 0 then none
  else
    let r := rustBinarySearchBy n.inodes.length
      (fun i => cmpKey (n.inodes.getD i INode.new).key oldKey)
    let inodes1 :=
      match r with
      | .inr idx => n.inodes.insertIdx idx INode.new
      | .inl _ => n.inodes
    let index :=
      match r with
      | .inr idx => idx
      | .inl idx => idx
    let newInode : INode := { flags := flags, key := newKey, value := value, pgid := pgid }
    some { n with inodes := inodes1.set index newInode }

/-- One element slot of a page body (src/page.rs): `LeafPageElement` is
`flags, pos, ksize, vsize` and `BranchPageElement` is `pos, ksize,
pgid`.  `pos` is the distance from the element slot to its payload. -/
inductive PageElem where
  | leafE (flags pos ksize vsize : Nat)
  | branchE (pos ksize : Nat) (pgid : Nat)
deriving Repr, DecidableEq

/-- `Page` (src/page.rs): the header fields plus the body.  The body's
element region is modelled as the list of element slots in index order,
and `data` as the body's byte region addressed from the body start; the
code reads and writes raw bytes only at offsets past the element region,
through each element's `pos`. -/
structure RPage where
  id : Nat
  flags : Nat
  count : Nat
  overflow : Nat
  elems : List PageElem
  data : List Char
deriving Repr, DecidableEq

/-- `ptr::copy` of `s` to body offset `off` (a write beyond the modelled
buffer is out of range for `List.set` and is dropped; the round-trip
theorem's size hypothesis keeps every write in bounds). -/
def storeChars : List Char → Nat → List Char → List Char
  | data, _, [] => data
  | data, off, c :: rest => storeChars (data.set off c) (off + 1) rest

/-- `slice::from_raw_parts`: `len` bytes at body offset `off`, reading
`'\x00'` at offsets beyond the modelled buffer. -/
def readChars (data : List Char) (off len : Nat) : List Char :=
  (List.range len).map (fun j => data.getD (off + j) '\x00')

/-- The per-inode loop of `Node::write` (src/node.rs lines 328-377):
element `i` (at body offset `elsz·i`) receives `pos = b - elsz·i`, the
distance to the data pointer `b`, and the key and value bytes are copied
at `b`.  `none` models the zero-length-key assert and the branch
circular-dependency assert `pgid ≠ page.id`. -/
def writeLoop (isLeaf : Bool) (elsz : Nat) (pageId : Nat) :
    List INode → Nat → Nat → List Char → Option (List PageElem × List Char)
  | [], _, _, data => some ([], data)
  | item :: rest, i, b, data =>
    if item.key.length = 0 then none
    else
      let pos := b - elsz * i
      if ¬ isLeaf ∧ item.pgid = pageId then none
      else
        let elem : PageElem :=
          if isLeaf then .leafE item.flags pos item.key.length (valLen item.value)
          else .branchE pos item.key.length item.pgid
        let data1 := storeChars data b item.key
        let b1 := b + item.key.length
        let data2 :=
          match item.value with
          | none => data1
          | some v => storeChars data1 b1 v
        let b2 := b1 + valLen item.value
        match writeLoop isLeaf elsz pageId rest (i + 1) b2 data2 with
        | none => none
        | some (es, dataF) => some (elem :: es, dataF)

/-- `Node::write` (src/node.rs lines 304-379): set the leaf or branch
flag, refuse `count ≥ 0xFFFF`, stop early on an empty node, otherwise
start the data pointer after the element region and write every inode. -/
def RNode.write (n : RNode) (p : RPage) : Option RPage :=
  let flags' := p.flags ||| (if n.isLeaf then LEAF_PAGE_FLAG else BRANCH_PAGE_FLAG)
  if 0xFFFF ≤ n.inodes.length then none
  else if n.inodes.length = 0 then some { p with flags := flags', count := 0 }
  else
    let b0 := n.inodes.length * n.pageElementSize
    match writeLoop n.isLeaf n.pageElementSize p.id n.inodes 0 b0 p.data with
    | none => none
    | some (es, dataF) =>
      some { p with flags := flags', count := n.inodes.length, elems := es, data := dataF }

/-- One element of `Node::read` (src/node.rs lines 270-291): the payload
of element `i` is at body offset `elsz·i + pos`.  Reading an element
slot as the other kind would reinterpret raw bytes, which the model does
not represent (`none`); a page produced by `Node::write` never needs it. -/
def readElem (isLeaf : Bool) (elsz : Nat) (data : List Char) (i : Nat) :
    PageElem → Option INode
  | .leafE f pos ks vs =>
    if isLeaf then
      some { flags := f, pgid := 0, key := readChars data (elsz * i + pos) ks,
             value := some (readChars data (elsz * i + pos + ks) vs) }
    else none
  | .branchE pos ks pg =>
    if isLeaf then none
    else
      some { flags := 0, pgid := pg, key := readChars data (elsz * i + pos) ks,
             value := none }

/-- The `for i in 0..p.count` loop of `Node::read`, with the per-inode
zero-length-key assert; `none` also models an element access beyond the
element region. -/
def readLoop (isLeaf : Bool) (elsz : Nat) (data : List Char) (elems : List PageElem) :
    Nat → Nat → Option (List INode)
  | 0, _ => some []
  | rem + 1, i =>
    match elems.get? i with
    | none => none
    | some e =>
      match readElem isLeaf elsz data i e with
      | none => none
      | some inode =>
        if inode.key.length = 0 then none
        else
          match readLoop isLeaf elsz data elems rem (i + 1) with
          | none => none
          | some rest => some (inode :: rest)

/-- `Node::read` (src/node.rs lines 265-302) into a fresh node. -/
def RPage.read (p : RPage) : Option RNode :=
  let leaf := p.flags &&& LEAF_PAGE_FLAG != 0
  let elsz := if leaf then LEAF_PAGE_ELEMENT_SIZE else BRANCH_PAGE_ELEMENT_SIZE
  match readLoop leaf elsz p.data p.elems p.count 0 with
  | none => none
  | some inodes =>
    match inodes with
    | [] => some { isLeaf := leaf, inodes := [], key := [], pgid := p.id, hasParent := false }
    | x :: _ =>
      if x.key.length = 0 then none
      else some { isLeaf := leaf, inodes := inodes, key := x.key, pgid := p.id,
                  hasParent := false }

/-- A nonnegative `f32` fill percentage modelled as the exact fraction
`num / den` (`den ≠ 0`).  At every point this development evaluates the
code's `f32` arithmetic (fill percent 1/2, page size 100) the values and
products are exactly representable in `f32`, so the exact fractions
agree with the code. -/
structure Frac where
  num : Nat
  den : Nat
deriving Repr, DecidableEq

/-- Strict comparison of fractions (cross multiplication). -/
def fracLt (a b : Frac) : Bool :=
  a.num * b.den < b.num * a.den

/-- `fill_percent * page_size as f32) as usize`: the product truncated
to an integer. -/
def fracMulTrunc (a : Frac) (n : Nat) : Nat :=
  a.num * n / a.den

/-- `MIN_FILL_PERCENT` (src/bucket.rs), the `f32` constant `0.1`. -/
def MIN_FILL_PERCENT : Frac := ⟨1, 10⟩

/-- `MAX_FILL_PERCENT` (src/bucket.rs), the `f32` constant `1.0`. -/
def MAX_FILL_PERCENT : Frac := ⟨1, 1⟩

/-- The clamp of `bucket.fill_percent` performed at the start of
`Node::split_two` (src/node.rs lines 495-500). -/
def clampFill (fp : Frac) : Frac :=
  if fracLt fp MIN_FILL_PERCENT then MIN_FILL_PERCENT
  else if fracLt MAX_FILL_PERCENT fp then MAX_FILL_PERCENT
  else fp

/-- The loop of `Node::split_index` (src/node.rs lines 558-574), with
`rem` iterations left, loop counter `i`, current `index` and running
size `sz`.  Note the strict `i > MIN_KEYS_PER_PAGE` guard of the
source. -/
def splitIndexLoop (inodes : List INode) (elsz threshold : Nat) :
    Nat → Nat → Nat → Nat → Nat × Nat
  | 0, _, index, sz => (index, sz)
  | rem + 1, i, _, sz =>
    let elsize := inodeSize elsz (inodes.getD i INode.new)
    if MIN_KEYS_PER_PAGE < i ∧ threshold < sz + elsize then (i, sz)
    else splitIndexLoop inodes elsz threshold rem (i + 1) i (sz + elsize)

/-- `Node::split_index` (src/node.rs lines 553-576). -/
def RNode.splitIndex (n : RNode) (threshold : Nat) : Nat × Nat :=
  splitIndexLoop n.inodes n.pageElementSize threshold
    (n.inodes.length - MIN_KEYS_PER_PAGE) 0 0 pageHeaderSize

/-- The observable result of `Node::split_two` (src/node.rs lines
487-548): the shrunk node, the new sibling and — when the node had no
parent — the inode lists of the children of the freshly created parent
(`[self, next]`, in push order). -/
structure SplitTwoResult where
  self : RNode
  next : RNode
  freshParentChildren : Option (List (List INode))
deriving Repr, DecidableEq

/-- `Node::split_two` (src/node.rs lines 487-548).  `fillPercent` is
`bucket.fill_percent`, `pageSize` the database page size; `none` means
no split is performed. -/
def RNode.splitTwo (n : RNode) (fillPercent : Frac) (pageSize : Nat) :
    Option SplitTwoResult :=
  if n.inodes.length < MIN_KEYS_PER_PAGE * 2 ∨ n.sizeLessThan pageSize then none
  else
    let threshold := fracMulTrunc (clampFill fillPercent) pageSize
    let si := (n.splitIndex threshold).1
    let leftInodes := n.inodes.take si
    let rightInodes := n.inodes.drop si
    some { self := { n with inodes := leftInodes, hasParent := true },
           next := { isLeaf := n.isLeaf, inodes := rightInodes, key := [], pgid := 0,
                     hasParent := true },
           freshParentChildren :=
             if n.hasParent then none else some [leftInodes, rightInodes] }

/-- The in-memory node state touched by `Bucket::node` (src/bucket.rs):
parent pointer and child list, with `Rc` identity modelled as arena
indices, plus the inode list. -/
structure BNode where
  parent : Option Nat
  children : List Nat
  inodes : List INode
deriving Repr, DecidableEq

/-- The state read and written by `Bucket::node` (src/bucket.rs lines
62-100).  `arena` models `Rc` allocation: node ids are indices in
allocation order.  `nodes` is the bucket's node cache (`HashMap` as an
insertion-ordered association list), `page` the bucket's inline page
reference and `nodeCount` the statistic `tx.stats.node_count`. -/
structure BucketState where
  nodes : List (Nat × Nat)
  rootNode : Option Nat
  page : Option RPage
  arena : List BNode
  nodeCount : Nat
deriving Repr, DecidableEq

/-- `Bucket::node(pgid, parent)` (src/bucket.rs lines 62-100).  On a
cache hit the cached node id is returned and the state is unchanged.
Otherwise a `Node::new` is created and attached to `parent` (pushed into
the parent's child list, weak back-pointer set) or stored as
`root_node`.  Then, `if p.is_none()`, the source calls
`self.tx.borrow().page(pgid)` whose body is `unimplemented!()`
(src/tx.rs), modelled by `none`.  The statement `n.read(p)` that would
fill the node from the page is commented out in the source, so the new
node keeps its empty `inodes`; finally the node is cached under `pgid`
and `node_count` is incremented. -/
def bucketNode (st : BucketState) (pgid : Nat) (parent : Option Nat) :
    Option (Nat × BucketState) :=
  match st.nodes.find? (fun e => e.1 = pgid) with
  | some e => some (e.2, st)
  | none =>
    let nid := st.arena.length
    let fresh : BNode := { parent := parent, children := [], inodes := [] }
    let arena1 := st.arena ++ [fresh]
    let st1 :=
      match parent with
      | some pid =>
        let pnode := arena1.getD pid ⟨none, [], []⟩
        { st with arena := arena1.set pid { pnode with children := pnode.children ++ [nid] } }
      | none => { st with arena := arena1, rootNode := some nid }
    if st1.page.isNone then none
    else
      some (nid, { st1 with nodes := st1.nodes ++ [(pgid, nid)],
                            nodeCount := st1.nodeCount + 1 })

/-- Specification-side view of a run: `n` consecutive page ids starting
at `p` are all present in `ids`. -/
def isRun (ids : List Nat) (p : Nat) (n : Nat) : Prop :=
  ∀ j < n, p + j ∈ ids

/-- No run of `n` consecutive ids lies (value-wise) inside `l`. -/
def noRun (l : List Nat) (n : Nat) : Prop :=
  ∀ q, ¬ isRun l q n

/-- The reachable states of the `allocate` scan after having consumed
the prefix `pre` of `ids`: either nothing was consumed yet, or `pre`
ends in the current maximal consecutive run `initial, …, previd` of
length `k < n`, preceded by elements that stop strictly before
`initial - 1`. -/
def ScanInv (n : Nat) (pre : List Nat) (initial previd : Nat) : Prop :=
  (pre = [] ∧ previd = 0) ∨
  (∃ preA k, 1 ≤ k ∧ k < n ∧
    pre = preA ++ List.range' initial k ∧
    previd = initial + (k - 1) ∧
    1 < initial ∧
    (∀ a ∈ preA, a + 1 < initial) ∧
    noRun preA n)

/-- Strict key order as used by the node code (`str::cmp` returning
`Less`). -/
def keyLT (a b : List Char) : Prop :=
  cmpKey a b = .lt

/-- The key order is decidable (used to evaluate sortedness
hypotheses on concrete nodes). -/
instance decidableKeyLT (a b : List Char) : Decidable (keyLT a b) :=
  inferInstanceAs (Decidable (cmpKey a b = .lt))

/-- Specification-side description of `Node::put` on a sorted node:
walk the entries in order; replace the entry whose key equals the
searched key, or insert the new entry in front of the first larger
key. -/
def insertOrReplace (searchKey : List Char) (e : INode) : List INode → List INode
  | [] => [e]
  | x :: xs =>
    match cmpKey x.key searchKey with
    | .lt => x :: insertOrReplace searchKey e xs
    | .eq => e :: xs
    | .gt => e :: x :: xs

/-- The serialized size of the first `i` inodes including the page
header (specification-side shorthand). -/
def prefixSize (elsz : Nat) (inodes : List INode) (i : Nat) : Nat :=
  pageHeaderSize + ((inodes.take i).map (inodeSize elsz)).sum

/-- The total number of key and value bytes of an inode list
(specification-side shorthand). -/
def kvWeight (l : List INode) : Nat :=
  (l.map (fun e => e.key.length + valLen e.value)).sum

/-- The split-index rule exactly as the specification words it: the
first index `i ≥ MIN_KEYS_PER_PAGE` such that adding entry `i` to the
accumulated size would exceed the threshold (and, failing that, the
last index the walk reaches). -/
def splitIndexClaimed (inodes : List INode) (elsz threshold : Nat) : Nat :=
  match (List.range (inodes.length - MIN_KEYS_PER_PAGE)).find?
      (fun i => decide (MIN_KEYS_PER_PAGE ≤ i) &&
        decide (threshold < prefixSize elsz inodes i + inodeSize elsz (inodes.getD i INode.new)))
    with
  | some i => i
  | none => inodes.length - MIN_KEYS_PER_PAGE - 1

/-- The split index the code actually computes, in closed form: the
first index `i > MIN_KEYS_PER_PAGE` whose addition would exceed the
threshold, capped by the end of the walk. -/
def splitIndexActual (inodes : List INode) (elsz threshold : Nat) : Nat :=
  match (List.range (inodes.length - MIN_KEYS_PER_PAGE)).find?
      (fun i => decide (MIN_KEYS_PER_PAGE < i) &&
        decide (threshold < prefixSize elsz inodes i + inodeSize elsz (inodes.getD i INode.new)))
    with
  | some i => i
  | none => inodes.length - MIN_KEYS_PER_PAGE - 1

/-- Scenario fixture: the leaf node of the repository's
`node_write_leaf_page` test. -/
def johnNode : RNode :=
  RNode.mk true
    [INode.mk 0 0 "john".toList (some "johnson".toList),
     INode.mk 0 0 "ricki".toList (some "lake".toList),
     INode.mk 0 0 "susy".toList (some "que".toList)] [] 0 false

/-- An 80-byte zeroed page body (large enough for `johnNode.size = 91`,
whose body takes 75 bytes). -/
def zeroPage80 : RPage := RPage.mk 0 0 0 0 [] (List.replicate 80 (Char.ofNat 0))

/-- A leaf node holding one inode with key `"a"` and no value. -/
def noneValueNode : RNode := RNode.mk true [INode.mk 0 0 "a".toList none] [] 0 false

/-- A 17-byte zeroed page body (`noneValueNode.size = 33`, body 17). -/
def zeroPage17 : RPage := RPage.mk 0 0 0 0 [] (List.replicate 17 (Char.ofNat 0))

/-- Scenario fixture: an entry with an 8-byte key and a 16-byte value as
in the repository's `node_split` test. -/
def splitEntry (k : String) : INode :=
  INode.mk 0 0 k.toList (some "0123456701234567".toList)

/-- The five-entry parentless node of the `node_split` test. -/
def fiveNode : RNode :=
  RNode.mk false
    [splitEntry "00000001", splitEntry "00000002", splitEntry "00000003",
     splitEntry "00000004", splitEntry "00000005"] [] 0 false

/-- Six entries of the same shape (one more than the `node_split`
test). -/
def sixNode : RNode :=
  RNode.mk false
    [splitEntry "00000001", splitEntry "00000002", splitEntry "00000003",
     splitEntry "00000004", splitEntry "00000005", splitEntry "00000006"] [] 0 false

/-- A leaf page holding the single entry `("bar", "fooz")`: one element
slot with `pos = 16`, and the payload bytes at body offsets 16-22. -/
def barPage : RPage :=
  RPage.mk 3 2 1 0 [PageElem.leafE 0 16 3 4]
    (storeChars (List.replicate 23 (Char.ofNat 0)) 16 "barfooz".toList)

/-- A bucket whose inline `page` is `barPage` and whose node cache is
empty. -/
def bucketSt0 : BucketState := BucketState.mk [] none (some barPage) [] 0

/-- The state after `bucketNode bucketSt0 3 none`. -/
def bucketSt1 : BucketState :=
  BucketState.mk [(3, 0)] (some 0) (some barPage) [BNode.mk none [] []] 1

/-- The seven-page-id freelist of the repository's `freelist_allocate`
test. -/
def allocFixture : FreeList := FreeList.mk [3, 4, 5, 6, 7, 9, 12, 13, 18] [] []

/-- A sequence of `allocate` calls, collecting the returned page ids and
threading the freelist (`none` as soon as one call panics). -/
def allocSeq : FreeList → List Nat → Option (List Nat × FreeList)
  | f, [] => some ([], f)
  | f, n :: ns =>
    match f.allocate n with
    | none => none
    | some (p, f') =>
      match allocSeq f' ns with
      | none => none
      | some (ps, f'') => some (p :: ps, f'')

/-- The size fold of `Node::size` never decreases. -/
theorem size_foldl_le (elsz : Nat) (l : List INode) (sz : Nat) :
    sz ≤ l.foldl (fun a e => a + elsz + e.key.length + valLen e.value) sz := by
  induction l generalizing sz with
  | nil => simp
  | cons x xs ih =>
    simp only [List.foldl_cons]
    exact le_trans (by omega) (ih (sz + elsz + x.key.length + valLen x.value))

/-- On a non-empty inode list the short-circuiting loop of
`size_less_than` agrees with the full size fold. -/
theorem sltLoop_iff (elsz v : Nat) (l : List INode) : ∀ (sz : Nat), l ≠ [] →
    (sltLoop elsz v l sz = true ↔
      l.foldl (fun a e => a + elsz + e.key.length + valLen e.value) sz < v) := by
  induction l with
  | nil => intro sz h; cases h rfl
  | cons x xs ih =>
    intro sz _
    cases xs with
    | nil =>
      by_cases hv : v ≤ sz + elsz + x.key.length + valLen x.value
      · simp only [sltLoop, List.foldl_cons, List.foldl_nil, if_pos hv]
        constructor
        · intro hfalse; cases hfalse
        · intro hlt; omega
      · simp only [sltLoop, List.foldl_cons, List.foldl_nil, if_neg hv]
        constructor
        · intro _; omega
        · intro _; trivial
    | cons y ys =>
      by_cases hv : v ≤ sz + elsz + x.key.length + valLen x.value
      · have hmono := size_foldl_le elsz (y :: ys)
          (sz + elsz + x.key.length + valLen x.value)
        simp only [List.foldl_cons] at hmono
        simp only [sltLoop, List.foldl_cons, if_pos hv]
        constructor
        · intro hfalse; cases hfalse
        · intro hlt; omega
      · have hrec := ih (sz + elsz + x.key.length + valLen x.value) (by simp)
        simp only [sltLoop, List.foldl_cons, if_neg hv]
        simpa only [List.foldl_cons] using hrec

/-- Claim C10 (amended): for every node with at least one inode, the
short-circuiting `size_less_than(v)` returns `true` exactly when the
fully computed `size()` is strictly below `v`.  (An inode-less node
returns `true` for every bound, although its size is the page header
size.) -/
theorem size_less_than_iff (n : RNode) (v : Nat) (h : n.inodes ≠ []) :
    n.sizeLessThan v = true ↔ n.size < v :=
  sltLoop_iff n.pageElementSize v n.inodes pageHeaderSize h

/-- Claim C10 (counterexample): on a node with no inodes and bound `0`,
`size_less_than` returns `true` although `size() = 16` is not below
`0`. -/
theorem size_less_than_counterexample :
    (RNode.mk true [] [] 0 false).sizeLessThan 0 = true ∧
      ¬ (RNode.mk true [] [] 0 false).size < 0 :=
  ⟨by decide, by decide⟩

/-- Witness for the amended claim C10, at the three-inode leaf of the
repository's write test and bound 100 (its size is 91). -/
theorem size_less_than_iff_witness :
    johnNode.inodes ≠ [] ∧ johnNode.sizeLessThan 100 = true :=
  ⟨by decide, (size_less_than_iff johnNode 100 (by decide)).mpr (by decide)⟩

/-- Claim C2 (code bug): from the consistent state `ids = cache =
[3,4]` (the cache is the union of `ids` and the empty pending map),
`allocate 1` succeeds with page 3 but leaves `3` in the cache: the
removal loop `for i in 0..n` removes the page ids `0..n-1` from the
cache, not the allocated run. -/
theorem allocate_cache_divergence :
    (FreeList.mk [3, 4] [] [3, 4]).allocate 1
        = some (3, FreeList.mk [4] [] [3, 4]) ∧
      (3 : Nat) ∈ (FreeList.mk [4] [] [3, 4]).cache :=
  ⟨by decide, by decide⟩

/-- Claim C6 (code bug): on the repository's `pgids_merge` inputs
(non-empty, sorted, disjoint) `merge_pgids` produces the sorted union,
but whenever `a` or `b` is empty it panics: the empty-input branches
copy the empty slice itself instead of the other one and fall through
to the `b[0]` / `a[0]` accesses. -/
theorem merge_pgids_empty_panic :
    mergeNats 14 [4, 5, 6, 10, 11, 12, 13, 27] [1, 3, 8, 9, 25, 30]
        = some [1, 3, 4, 5, 6, 8, 9, 10, 11, 12, 13, 25, 27, 30] ∧
      mergeNats 14 [4, 5, 6, 10, 11, 12, 13, 27, 35, 36] [8, 9, 25, 30]
        = some [4, 5, 6, 8, 9, 10, 11, 12, 13, 25, 27, 30, 35, 36] ∧
      mergeNats 3 [] [9, 12, 13] = none ∧
      mergeNats 1 [1] [] = none :=
  ⟨by decide, by decide, by decide, by decide⟩

/-- Claim C7 (code bug): the scenario of the repository's
`freelist_release` test.  Freeing pages 12-13 and 9 under txid 100
produces `pending[100] = [12,13,9]`; releasing txid 100 does drain
exactly the tids `≤ 100` (shown on a freelist with a non-empty `ids`),
but on the test's own state, where `ids` is empty, `release` panics
inside `merge_pgids` instead of producing `ids = [9,12,13]`. -/
theorem release_panic :
    (((FreeList.mk [] [] []).free 100 12 1).bind (fun f => f.free 100 9 0))
        = some (FreeList.mk [] [(100, [12, 13, 9])] [12, 13, 9]) ∧
      (FreeList.mk [] [(100, [12, 13, 9]), (102, [39])] [12, 13, 9, 39]).release 100
        = none ∧
      (FreeList.mk [5] [(100, [12, 13, 9]), (102, [39])] [5, 12, 13, 9, 39]).release 100
        = some (FreeList.mk [5, 9, 12, 13] [(102, [39])] [5, 12, 13, 9, 39]) :=
  ⟨by decide, by decide, by decide⟩

/-- Claim C9 (code bug): `Bucket::node` returns a cached node unchanged,
and on a miss creates a node, attaches it (root slot, or parent child
list plus back-pointer), caches it and bumps `node_count` — but it
never reads the backing page, because `n.read(p)` is commented out in
the source: the cached node keeps empty `inodes` although the page
holds `("bar", "fooz")`.  With no inline page the call would reach the
`unimplemented!()` `Tx::page` and panic. -/
theorem bucket_node_divergence :
    bucketNode bucketSt0 3 none = some (0, bucketSt1) ∧
      bucketNode bucketSt1 3 none = some (0, bucketSt1) ∧
      bucketNode bucketSt1 7 (some 0)
        = some (1, BucketState.mk [(3, 0), (7, 1)] (some 0) (some barPage)
            [BNode.mk none [1] [], BNode.mk (some 0) [] []] 2) ∧
      (bucketSt1.arena.getD 0 (BNode.mk none [] [])).inodes = [] ∧
      barPage.read = some (RNode.mk true
        [INode.mk 0 0 "bar".toList (some "fooz".toList)] "bar".toList 3 false) ∧
      bucketNode (BucketState.mk [] none none [] 0) 3 none = none :=
  ⟨by decide, by decide, by decide, by decide, by decide, by decide⟩

/-- `ptr::copy` preserves the buffer length. -/
theorem storeChars_length : ∀ (s data : List Char) (off : Nat),
    (storeChars data off s).length = data.length := by
  intro s
  induction s with
  | nil => intro data off; rfl
  | cons c rest ih =>
    intro data off
    simp only [storeChars, ih, List.length_set]

/-- Bytes below the copied region are untouched. -/
theorem storeChars_getD_lt : ∀ (s data : List Char) (off j : Nat), j < off →
    (storeChars data off s).getD j '\x00' = data.getD j '\x00' := by
  intro s
  induction s with
  | nil => intro data off j _; rfl
  | cons c rest ih =>
    intro data off j hj
    simp only [storeChars]
    rw [ih (data.set off c) (off + 1) j (by omega)]
    rw [List.getD_eq_getElem?_getD, List.getD_eq_getElem?_getD,
      List.getElem?_set_ne (by omega)]

/-- Bytes of the copied region read back as the source. -/
theorem storeChars_getD_in : ∀ (s data : List Char) (off j : Nat), j < s.length →
    off + s.length ≤ data.length →
    (storeChars data off s).getD (off + j) '\x00' = s.getD j '\x00' := by
  intro s
  induction s with
  | nil => intro data off j hj _; cases hj
  | cons c rest ih =>
    intro data off j hj hlen
    simp only [storeChars]
    cases j with
    | zero =>
      rw [storeChars_getD_lt rest (data.set off c) (off + 1) (off + 0) (by omega)]
      rw [List.getD_eq_getElem?_getD, Nat.add_zero,
        List.getElem?_set_eq (by simp at hlen ⊢; omega)]
      rfl
    | succ j' =>
      have := ih (data.set off c) (off + 1) j' (by simpa using hj)
        (by simp only [List.length_set]; simp at hlen; omega)
      rw [show off + (j' + 1) = off + 1 + j' by omega]
      rw [this]
      rfl

/-- Reading from buffers that agree on the read region. -/
theorem readChars_congr (x y : List Char) (off len : Nat)
    (h : ∀ j, j < off + len → x.getD j '\x00' = y.getD j '\x00') :
    readChars x off len = readChars y off len := by
  unfold readChars
  refine List.map_congr_left ?_
  intro j hj
  exact h (off + j) (by have := List.mem_range.mp hj; omega)

/-- Reading a list back out of the byte region it was stored into. -/
theorem readChars_storeChars (s data : List Char) (off : Nat)
    (h : off + s.length ≤ data.length) :
    readChars (storeChars data off s) off s.length = s := by
  unfold readChars
  refine List.ext_getElem (by simp) ?_
  intro j h1 h2
  simp only [List.getElem_map, List.getElem_range]
  have hj : j < s.length := by simpa using h2
  rw [storeChars_getD_in s data off j hj h]
  rw [List.getD_eq_getElem?_getD, List.getElem?_eq_getElem hj]
  rfl

/-- The size fold as header plus element headers plus payload bytes. -/
theorem size_foldl_eq (elsz : Nat) : ∀ (l : List INode) (a : Nat),
    l.foldl (fun sz e => sz + elsz + e.key.length + valLen e.value) a
      = a + elsz * l.length + kvWeight l := by
  intro l
  induction l with
  | nil => intro a; simp [kvWeight]
  | cons x xs ih =>
    intro a
    simp only [List.foldl_cons, ih, kvWeight, List.map_cons, List.sum_cons,
      List.length_cons, Nat.mul_succ]
    omega

/-- Both element kinds occupy 16 bytes. -/
theorem pageElementSize_eq (n : RNode) : n.pageElementSize = 16 := by
  unfold RNode.pageElementSize LEAF_PAGE_ELEMENT_SIZE BRANCH_PAGE_ELEMENT_SIZE
  split
  · rfl
  · rfl

/-- Unfolding of one `Node::write` loop iteration when neither assert
fires. -/
theorem writeLoop_cons (isLeaf : Bool) (pid : Nat) (item : INode) (rest : List INode)
    (i b : Nat) (data : List Char)
    (hk0 : ¬ item.key.length = 0)
    (hguard : ¬ (¬ isLeaf = true ∧ item.pgid = pid)) :
    writeLoop isLeaf 16 pid (item :: rest) i b data =
      match writeLoop isLeaf 16 pid rest (i + 1)
          (b + item.key.length + valLen item.value)
          (match item.value with
            | none => storeChars data b item.key
            | some v => storeChars (storeChars data b item.key) (b + item.key.length) v) with
      | none => none
      | some (es, dataF) =>
        some ((if isLeaf then
                 PageElem.leafE item.flags (b - 16 * i) item.key.length (valLen item.value)
               else
                 PageElem.branchE (b - 16 * i) item.key.length item.pgid) :: es, dataF) := by
  simp only [writeLoop]
  rw [if_neg hk0, if_neg hguard]

/-- Unfolding of one `Node::read` loop iteration on a valid element. -/
theorem readLoop_cons (isLeaf : Bool) (data : List Char) (elems : List PageElem)
    (rem i : Nat) (e : PageElem) (inode : INode)
    (hget : elems.get? i = some e)
    (helem : readElem isLeaf 16 data i e = some inode)
    (hk : ¬ inode.key.length = 0) :
    readLoop isLeaf 16 data elems (rem + 1) i =
      match readLoop isLeaf 16 data elems rem (i + 1) with
      | none => none
      | some rest => some (inode :: rest) := by
  simp only [readLoop, hget, helem]
  rw [if_neg hk]

/-- Round trip of the serialization loops: writing well-formed inodes
starting at element index `i` and data offset `b` succeeds, touches no
byte below `b`, and the resulting elements read back as exactly the
written inodes. -/
theorem writeLoop_read (isLeaf : Bool) (pid : Nat) :
    ∀ (inodes : List INode) (i b : Nat) (data : List Char),
    (∀ e ∈ inodes, e.key ≠ []) →
    (isLeaf = true → ∀ e ∈ inodes, e.value.isSome ∧ e.pgid = 0) →
    (isLeaf = false → ∀ e ∈ inodes, e.flags = 0 ∧ e.value = none ∧ e.pgid ≠ pid) →
    16 * (i + inodes.length) ≤ b → b + kvWeight inodes ≤ data.length →
    ∃ es dataF, writeLoop isLeaf 16 pid inodes i b data = some (es, dataF) ∧
      dataF.length = data.length ∧
      (∀ j, j < b → dataF.getD j '\x00' = data.getD j '\x00') ∧
      es.length = inodes.length ∧
      (∀ pre : List PageElem, pre.length = i →
        readLoop isLeaf 16 dataF (pre ++ es) inodes.length i = some inodes) := by
  intro inodes
  induction inodes with
  | nil =>
    intro i b data _ _ _ _ _
    exact ⟨[], data, rfl, rfl, fun _ _ => rfl, rfl, fun pre _ => rfl⟩
  | cons item rest ih =>
    intro i b data hk hleaf hbranch hib hbound
    simp only [List.length_cons] at hib
    have hk0 : ¬ item.key.length = 0 :=
      fun h => hk item (List.mem_cons_self _ _) (List.length_eq_zero.mp h)
    have hguard : ¬ (¬ isLeaf = true ∧ item.pgid = pid) := by
      cases hL : isLeaf with
      | true => simp
      | false =>
        have h := (hbranch hL item (List.mem_cons_self _ _)).2.2
        simp [h]
    obtain ⟨vb, hvlen, hdmatch, hvleaf⟩ :
        ∃ vb : List Char,
          valLen item.value = vb.length ∧
          (match item.value with
            | none => storeChars data b item.key
            | some v => storeChars (storeChars data b item.key) (b + item.key.length) v)
            = storeChars (storeChars data b item.key) (b + item.key.length) vb ∧
          (isLeaf = true → item.value = some vb) := by
      cases hv : item.value with
      | none =>
        refine ⟨[], rfl, rfl, fun hL => ?_⟩
        have h := (hleaf hL item (List.mem_cons_self _ _)).1
        rw [hv] at h
        simp at h
      | some v => exact ⟨v, rfl, rfl, fun _ => rfl⟩
    have hkw : kvWeight (item :: rest) = item.key.length + vb.length + kvWeight rest := by
      simp only [kvWeight, List.map_cons, List.sum_cons, hvlen]
    obtain ⟨esR, dataF, heq, hlenF, hagree, hlenes, hread⟩ :=
      ih (i + 1) (b + item.key.length + vb.length)
        (storeChars (storeChars data b item.key) (b + item.key.length) vb)
        (fun e he => hk e (List.mem_cons_of_mem _ he))
        (fun hL e he => hleaf hL e (List.mem_cons_of_mem _ he))
        (fun hL e he => hbranch hL e (List.mem_cons_of_mem _ he))
        (by omega)
        (by rw [storeChars_length, storeChars_length]; omega)
    have hkeyread : readChars dataF b item.key.length = item.key := by
      have h1 : readChars dataF b item.key.length
          = readChars (storeChars (storeChars data b item.key) (b + item.key.length) vb)
              b item.key.length :=
        readChars_congr _ _ _ _ (fun j hj => hagree j (by omega))
      have h2 : readChars (storeChars (storeChars data b item.key) (b + item.key.length) vb)
            b item.key.length
          = readChars (storeChars data b item.key) b item.key.length :=
        readChars_congr _ _ _ _ (fun j hj => storeChars_getD_lt vb _ _ j hj)
      rw [h1, h2]
      exact readChars_storeChars item.key data b (by omega)
    have hvalread : readChars dataF (b + item.key.length) vb.length = vb := by
      have h1 : readChars dataF (b + item.key.length) vb.length
          = readChars (storeChars (storeChars data b item.key) (b + item.key.length) vb)
              (b + item.key.length) vb.length :=
        readChars_congr _ _ _ _ (fun j hj => hagree j (by omega))
      rw [h1]
      exact readChars_storeChars vb (storeChars data b item.key) (b + item.key.length)
        (by rw [storeChars_length]; omega)
    have hagreeb : ∀ j, j < b → dataF.getD j '\x00' = data.getD j '\x00' := by
      intro j hj
      rw [hagree j (by omega), storeChars_getD_lt vb _ _ j (by omega),
        storeChars_getD_lt item.key data b j hj]
    have hw : writeLoop isLeaf 16 pid (item :: rest) i b data
        = some ((if isLeaf then PageElem.leafE item.flags (b - 16 * i) item.key.length vb.length
                 else PageElem.branchE (b - 16 * i) item.key.length item.pgid) :: esR, dataF) := by
      rw [writeLoop_cons isLeaf pid item rest i b data hk0 hguard, hdmatch, hvlen, heq]
    have helem : readElem isLeaf 16 dataF i
        (if isLeaf then PageElem.leafE item.flags (b - 16 * i) item.key.length vb.length
         else PageElem.branchE (b - 16 * i) item.key.length item.pgid) = some item := by
      have hpos : 16 * i + (b - 16 * i) = b := by omega
      rcases Bool.eq_false_or_eq_true isLeaf with hL | hL
      · obtain ⟨_, hp0⟩ := hleaf hL item (List.mem_cons_self _ _)
        have hvv : item.value = some vb := hvleaf hL
        rw [if_pos hL]
        simp only [readElem]
        rw [if_pos hL, hpos, hkeyread, hvalread, ← hp0, ← hvv]
      · obtain ⟨hbf, hbv, _⟩ := hbranch hL item (List.mem_cons_self _ _)
        have hne : ¬ isLeaf = true := by simp [hL]
        rw [if_neg hne]
        simp only [readElem]
        rw [if_neg hne, hpos, hkeyread, ← hbf, ← hbv]
    refine ⟨_, dataF, hw, ?_, hagreeb, ?_, ?_⟩
    · rw [hlenF, storeChars_length, storeChars_length]
    · simp only [List.length_cons, hlenes]
    · intro pre hpre
      have hget : (pre ++ ((if isLeaf then
            PageElem.leafE item.flags (b - 16 * i) item.key.length vb.length
          else PageElem.branchE (b - 16 * i) item.key.length item.pgid) :: esR)).get? i
          = some (if isLeaf then
            PageElem.leafE item.flags (b - 16 * i) item.key.length vb.length
          else PageElem.branchE (b - 16 * i) item.key.length item.pgid) := by
        rw [List.get?_append_right (by omega), hpre, Nat.sub_self]
        rfl
      have hrest : readLoop isLeaf 16 dataF
          (pre ++ ((if isLeaf then
              PageElem.leafE item.flags (b - 16 * i) item.key.length vb.length
            else PageElem.branchE (b - 16 * i) item.key.length item.pgid) :: esR))
          rest.length (i + 1) = some rest := by
        have h := hread (pre ++ [if isLeaf then
            PageElem.leafE item.flags (b - 16 * i) item.key.length vb.length
          else PageElem.branchE (b - 16 * i) item.key.length item.pgid]) (by simp [hpre])
        rwa [List.append_assoc, List.singleton_append] at h
      simp only [List.length_cons]
      rw [readLoop_cons isLeaf dataF _ rest.length i _ item hget helem hk0, hrest]

/-- Claim C4 (counterexample): a leaf inode carrying no value does not
round-trip: written to a zeroed page (17 body bytes, at least the
node's 33-byte size) and read back, its value returns as the empty
string rather than as absent. -/
theorem write_read_counterexample :
    (noneValueNode.write zeroPage17).bind RPage.read
        = some (RNode.mk true [INode.mk 0 0 "a".toList (some [])] "a".toList 0 false) ∧
      noneValueNode.inodes ≠ [INode.mk 0 0 "a".toList (some [])] :=
  ⟨by decide, by decide⟩

/-- Claim C4 (amended round trip): for every node whose inodes all have
non-empty keys and a representable shape — a leaf node's inodes carry a
value and child pgid 0, a branch node's inodes carry flags 0, no value
and a child pgid different from the page's id — with fewer than 0xFFFF
inodes, written to a page with no flag bits set whose body holds at
least `size() - 16` bytes, `Node::write` succeeds and `Node::read` of
the resulting page restores the same leaf/branch type and the same
inode sequence (keys, values, flags, child pgids). -/
theorem write_read_roundtrip (n : RNode) (p : RPage)
    (hflags : p.flags = 0)
    (hcount : n.inodes.length < 0xFFFF)
    (hkeys : ∀ e ∈ n.inodes, e.key ≠ [])
    (hL : n.isLeaf = true → ∀ e ∈ n.inodes, e.value.isSome ∧ e.pgid = 0)
    (hB : n.isLeaf = false → ∀ e ∈ n.inodes, e.flags = 0 ∧ e.value = none ∧ e.pgid ≠ p.id)
    (hsize : n.size ≤ pageHeaderSize + p.data.length) :
    ∃ p' n', n.write p = some p' ∧ p'.read = some n' ∧
      n'.isLeaf = n.isLeaf ∧ n'.inodes = n.inodes := by
  have hsz : n.size = pageHeaderSize + 16 * n.inodes.length + kvWeight n.inodes := by
    unfold RNode.size
    rw [size_foldl_eq, pageElementSize_eq]
  have hbit : ((0 ||| (if n.isLeaf then LEAF_PAGE_FLAG else BRANCH_PAGE_FLAG))
      &&& LEAF_PAGE_FLAG != 0) = n.isLeaf := by
    rcases Bool.eq_false_or_eq_true n.isLeaf with h | h <;> rw [h] <;> decide
  cases hcons : n.inodes with
  | nil =>
    have hw : n.write p = some (RPage.mk p.id
        (0 ||| (if n.isLeaf then LEAF_PAGE_FLAG else BRANCH_PAGE_FLAG)) 0 p.overflow
        p.elems p.data) := by
      simp only [RNode.write, hcons, hflags, List.length_nil]
      rw [if_neg (by omega), if_pos trivial]
    have hr : (RPage.mk p.id
        (0 ||| (if n.isLeaf then LEAF_PAGE_FLAG else BRANCH_PAGE_FLAG)) 0 p.overflow
        p.elems p.data).read = some (RNode.mk n.isLeaf [] [] p.id false) := by
      simp only [RPage.read]
      rw [hbit]
      rfl
    exact ⟨_, _, hw, hr, rfl, rfl⟩
  | cons x rest =>
    have hbound : n.inodes.length * 16 + kvWeight n.inodes ≤ p.data.length := by
      rw [hsz] at hsize
      omega
    obtain ⟨es, dataF, hwl, _, _, _, hread⟩ :=
      writeLoop_read n.isLeaf p.id n.inodes 0 (n.inodes.length * 16) p.data
        hkeys hL hB (by omega) hbound
    have hw : n.write p = some (RPage.mk p.id
        (0 ||| (if n.isLeaf then LEAF_PAGE_FLAG else BRANCH_PAGE_FLAG))
        n.inodes.length p.overflow es dataF) := by
      simp only [RNode.write, hflags]
      rw [pageElementSize_eq]
      rw [if_neg (by omega), if_neg (by rw [hcons]; simp)]
      rw [hwl]
    have hr : (RPage.mk p.id
        (0 ||| (if n.isLeaf then LEAF_PAGE_FLAG else BRANCH_PAGE_FLAG))
        n.inodes.length p.overflow es dataF).read
        = some (RNode.mk n.isLeaf (x :: rest) x.key p.id false) := by
      have helsz : (if n.isLeaf then LEAF_PAGE_ELEMENT_SIZE else BRANCH_PAGE_ELEMENT_SIZE)
          = 16 := by
        rcases Bool.eq_false_or_eq_true n.isLeaf with h | h <;> rw [h] <;> rfl
      have hx : ¬ x.key.length = 0 :=
        fun hh => hkeys x (by rw [hcons]; exact List.mem_cons_self _ _)
          (List.length_eq_zero.mp hh)
      have h0 := hread [] rfl
      rw [List.nil_append] at h0
      simp only [RPage.read]
      rw [hbit, helsz, h0, hcons]
      simp only [if_neg hx]
    exact ⟨_, _, hw, hr, rfl, rfl⟩

/-- Witness for the amended round trip: the `node_write_leaf_page`
fixture (john/ricki/susy) written to an 80-byte zeroed page and read
back. -/
theorem write_read_roundtrip_witness :
    ∃ p' n', johnNode.write zeroPage80 = some p' ∧ p'.read = some n' ∧
      n'.isLeaf = johnNode.isLeaf ∧ n'.inodes = johnNode.inodes :=
  write_read_roundtrip johnNode zeroPage80 (by decide) (by decide) (by decide)
    (by decide) (by decide) (by decide)

/-- Cache membership after `HashSet::insert`. -/
theorem mem_setInsert (s : List Nat) (x y : Nat) :
    y ∈ setInsert s x ↔ y ∈ s ∨ y = x := by
  by_cases h : s.contains x
  · simp only [setInsert, if_pos h]
    constructor
    · exact Or.inl
    · rintro (hy | rfl)
      · exact hy
      · exact List.elem_iff.mp h
  · simp only [setInsert, if_neg h, List.mem_append, List.mem_singleton]

/-- Cache membership after a fold of insertions. -/
theorem mem_foldl_setInsert (l : List Nat) : ∀ (s : List Nat) (y : Nat),
    y ∈ l.foldl setInsert s ↔ y ∈ s ∨ y ∈ l := by
  induction l with
  | nil => intro s y; simp
  | cons a as ih =>
    intro s y
    simp only [List.foldl_cons, ih, mem_setInsert, List.mem_cons]
    tauto

/-- `setContains` decides membership. -/
theorem setContains_iff (s : List Nat) (x : Nat) :
    setContains s x = true ↔ x ∈ s := by
  simp only [setContains]
  exact List.elem_iff

/-- The `free` loop succeeds on a duplicate-free run disjoint from the
cache, appending the run to the pending vector and inserting it into
the cache. -/
theorem freeLoop_some (run : List Nat) : ∀ (cache acc : List Nat),
    run.Nodup → (∀ x ∈ run, x ∉ cache) →
    freeLoop run cache acc = some (acc ++ run, run.foldl setInsert cache) := by
  induction run with
  | nil => intro cache acc _ _; simp [freeLoop]
  | cons a as ih =>
    intro cache acc hnd hnc
    have ha : ¬ setContains cache a = true := by
      rw [setContains_iff]
      exact hnc a (List.mem_cons_self a as)
    simp only [freeLoop, Bool.not_eq_true] at ha ⊢
    rw [ha]
    simp only [Bool.false_eq_true, if_false]
    rw [ih (setInsert cache a) (acc ++ [a]) (List.Nodup.of_cons hnd)]
    · simp [List.foldl_cons]
    · intro x hx
      rw [mem_setInsert]
      rintro (hc | rfl)
      · exact hnc x (List.mem_cons_of_mem a hx) hc
      · exact (List.nodup_cons.mp hnd).1 hx

/-- The `free` loop panics as soon as some id of the run is already in
the cache. -/
theorem freeLoop_none (run : List Nat) : ∀ (cache acc : List Nat),
    (∃ x ∈ run, x ∈ cache) → freeLoop run cache acc = none := by
  induction run with
  | nil => rintro cache acc ⟨x, hx, _⟩; cases hx
  | cons a as ih =>
    rintro cache acc ⟨x, hx, hc⟩
    by_cases ha : setContains cache a = true
    · simp [freeLoop, ha]
    · have hx' : x ∈ as := by
        rcases List.mem_cons.mp hx with rfl | h
        · exact absurd ((setContains_iff cache x).mpr hc) ha
        · exact h
      simp only [freeLoop, Bool.not_eq_true] at ha ⊢
      rw [ha]
      simp only [Bool.false_eq_true, if_false]
      exact ih _ _ ⟨x, hx', (mem_setInsert cache a x).mpr (Or.inl hc)⟩

/-- `pendingLookup` on a head entry with the searched key. -/
theorem pendingLookup_cons_eq (e : Nat × List Nat) (es : List (Nat × List Nat))
    (t : Nat) (he : e.1 = t) : pendingLookup (e :: es) t = some e.2 := by
  simp [pendingLookup, List.find?, he]

/-- `pendingLookup` skips a head entry with a different key. -/
theorem pendingLookup_cons_ne (e : Nat × List Nat) (es : List (Nat × List Nat))
    (t : Nat) (he : e.1 ≠ t) : pendingLookup (e :: es) t = pendingLookup es t := by
  simp [pendingLookup, List.find?, he]

/-- Updating a present key makes `pendingLookup` return the new
value. -/
theorem pendingLookup_update_self (p : List (Nat × List Nat)) (t : Nat)
    (v : List Nat) : ∀ _h : (pendingLookup p t).isSome,
    pendingLookup (pendingUpdate p t v) t = some v := by
  induction p with
  | nil => intro h; simp [pendingLookup] at h
  | cons e es ih =>
    intro h
    by_cases he : e.1 = t
    · simp only [pendingUpdate, List.map_cons]
      rw [if_pos he]
      exact pendingLookup_cons_eq _ _ _ rfl
    · simp only [pendingUpdate, List.map_cons]
      rw [if_neg he, pendingLookup_cons_ne _ _ _ he]
      rw [pendingLookup_cons_ne _ _ _ he] at h
      exact ih h

/-- Looking up a key appended to a map that does not contain it. -/
theorem pendingLookup_append (p : List (Nat × List Nat)) (t : Nat)
    (v : List Nat) : ∀ _h : pendingLookup p t = none,
    pendingLookup (p ++ [(t, v)]) t = some v := by
  induction p with
  | nil => intro _; exact pendingLookup_cons_eq _ _ _ rfl
  | cons e es ih =>
    intro h
    by_cases he : e.1 = t
    · rw [pendingLookup_cons_eq _ _ _ he] at h; cases h
    · rw [List.cons_append, pendingLookup_cons_ne _ _ _ he]
      rw [pendingLookup_cons_ne _ _ _ he] at h
      exact ih h

/-- Claim C8: `free(txid, page)` panics on `pgid ≤ 1` and on a double
free; otherwise it appends the run `pgid, …, pgid + overflow` to
`pending[txid]`, inserts every id of the run into the cache and leaves
`ids` unchanged.  The last conjunct is the concrete scenario
`free(100, page 12 with overflow 3)` on a fresh freelist. -/
theorem free_spec (f : FreeList) (txid : Nat) (pgid : Nat) (overflow : Nat) :
    (pgid ≤ 1 → f.free txid pgid overflow = none) ∧
    (1 < pgid → (∃ j, j ≤ overflow ∧ pgid + j ∈ f.cache) →
      f.free txid pgid overflow = none) ∧
    (1 < pgid → (∀ j, j ≤ overflow → pgid + j ∉ f.cache) →
      ∃ f', f.free txid pgid overflow = some f' ∧
        f'.ids = f.ids ∧
        pendingLookup f'.pending txid
          = some ((pendingLookup f.pending txid).getD []
              ++ List.range' pgid (overflow + 1)) ∧
        (∀ x, x ∈ f'.cache ↔ x ∈ f.cache ∨ x ∈ List.range' pgid (overflow + 1))) ∧
    (FreeList.mk [] [] []).free 100 12 3
      = some (FreeList.mk [] [(100, [12, 13, 14, 15])] [12, 13, 14, 15]) := by
  have hrun : pgid + 1 + overflow - pgid = overflow + 1 := by omega
  have hp0 : pendingLookup (freePending0 f txid) txid
      = some ((pendingLookup f.pending txid).getD []) := by
    unfold freePending0
    cases hl : pendingLookup f.pending txid with
    | none =>
      simp only [hl, Option.isSome_none, Bool.false_eq_true, if_false, Option.getD_none]
      exact pendingLookup_append f.pending txid [] hl
    | some v => simp [hl]
  refine ⟨?_, ?_, ?_, by decide⟩
  · intro h
    simp [FreeList.free, if_pos h]
  · rintro hp ⟨j, hj, hc⟩
    unfold FreeList.free
    rw [if_neg (show ¬ pgid ≤ 1 by omega), hrun, freeLoop_none]
    exact ⟨pgid + j, List.mem_range'_1.mpr ⟨by omega, by omega⟩, hc⟩
  · intro hp hnc
    have hnc' : ∀ x ∈ List.range' pgid (overflow + 1), x ∉ f.cache := by
      intro x hx hmem
      rcases List.mem_range'_1.mp hx with ⟨h1, h2⟩
      refine hnc (x - pgid) (by omega) ?_
      have hxx : pgid + (x - pgid) = x := by omega
      rw [hxx]; exact hmem
    refine ⟨{ f with
        pending := pendingUpdate (freePending0 f txid) txid
          ((pendingLookup (freePending0 f txid) txid).getD []
            ++ List.range' pgid (overflow + 1)),
        cache := (List.range' pgid (overflow + 1)).foldl setInsert f.cache },
      ?_, rfl, ?_, ?_⟩
    · unfold FreeList.free
      rw [if_neg (show ¬ pgid ≤ 1 by omega), hrun,
        freeLoop_some _ _ _ (List.nodup_range' _ _ _ Nat.one_pos) hnc']
    · simp only
      rw [pendingLookup_update_self _ _ _ (by rw [hp0]; rfl), hp0]
      rfl
    · intro x
      simp only
      rw [mem_foldl_setInsert]

/-- Witness for claim C8: `free(100, page 12 with overflow 3)` on a
fresh freelist produces `pending[100] = [12,13,14,15]`. -/
theorem free_spec_witness :
    pendingLookup ((((FreeList.mk [] [] []).free 100 12 3).getD
      (FreeList.mk [] [] [])).pending) 100 = some [12, 13, 14, 15] := by
  obtain ⟨f', h1, _h2, h3, _h4⟩ :=
    (free_spec (FreeList.mk [] [] []) 100 12 3).2.2.1 (by decide) (by decide)
  rw [h1]
  simp only [Option.getD_some]
  rw [h3]
  rfl

/-- Extending the accumulated prefix size by one inode. -/
theorem prefixSize_succ (elsz : Nat) (inodes : List INode) (i : Nat)
    (h : i < inodes.length) :
    prefixSize elsz inodes (i + 1)
      = prefixSize elsz inodes i + inodeSize elsz (inodes.getD i INode.new) := by
  unfold prefixSize
  rw [← List.take_concat_get' inodes i h, List.map_append, List.sum_append,
    List.getD_eq_getElem inodes INode.new h]
  simp [Nat.add_assoc]

/-- The `split_index` loop in closed form: the result index is the
first `i > MIN_KEYS_PER_PAGE` in the walked range whose addition would
exceed the threshold, or the last walked index. -/
theorem splitIndexLoop_spec (inodes : List INode) (elsz threshold : Nat) :
    ∀ (rem i index : Nat), 0 < rem → i + rem ≤ inodes.length →
    (splitIndexLoop inodes elsz threshold rem i index (prefixSize elsz inodes i)).1
      = match (List.range' i rem).find? (fun j => decide (MIN_KEYS_PER_PAGE < j) &&
          decide (threshold < prefixSize elsz inodes j
            + inodeSize elsz (inodes.getD j INode.new))) with
        | some j => j
        | none => i + rem - 1 := by
  intro rem
  induction rem with
  | zero => intro i index h; cases h
  | succ r ih =>
    intro i index _ hlen
    by_cases hc : MIN_KEYS_PER_PAGE < i ∧ threshold < prefixSize elsz inodes i
        + inodeSize elsz (inodes.getD i INode.new)
    · simp only [splitIndexLoop, if_pos hc]
      have hptrue : (decide (MIN_KEYS_PER_PAGE < i) &&
          decide (threshold < prefixSize elsz inodes i
            + inodeSize elsz (inodes.getD i INode.new))) = true := by
        rw [Bool.and_eq_true, decide_eq_true_eq, decide_eq_true_eq]
        exact ⟨hc.1, hc.2⟩
      have hr : List.range' i (r + 1) = i :: List.range' (i + 1) r := rfl
      have hfind : (i :: List.range' (i + 1) r).find?
          (fun j => decide (MIN_KEYS_PER_PAGE < j) &&
            decide (threshold < prefixSize elsz inodes j
              + inodeSize elsz (inodes.getD j INode.new))) = some i :=
        List.find?_cons_of_pos _ hptrue
      rw [hr, hfind]
    · simp only [splitIndexLoop, if_neg hc]
      have hpred : (decide (MIN_KEYS_PER_PAGE < i) &&
          decide (threshold < prefixSize elsz inodes i
            + inodeSize elsz (inodes.getD i INode.new))) = false := by
        by_cases h1 : MIN_KEYS_PER_PAGE < i
        · have h2 : ¬ threshold < prefixSize elsz inodes i
              + inodeSize elsz (inodes.getD i INode.new) := fun h2 => hc ⟨h1, h2⟩
          rw [Bool.and_eq_false_iff]
          exact Or.inr (by rw [decide_eq_false_iff_not]; exact h2)
        · rw [Bool.and_eq_false_iff]
          exact Or.inl (by rw [decide_eq_false_iff_not]; exact h1)
      have hr : List.range' i (r + 1) = i :: List.range' (i + 1) r := rfl
      have hpredne : ¬ ((decide (MIN_KEYS_PER_PAGE < i) &&
          decide (threshold < prefixSize elsz inodes i
            + inodeSize elsz (inodes.getD i INode.new))) = true) := by
        rw [hpred]; exact Bool.false_ne_true
      have hfind : (i :: List.range' (i + 1) r).find?
          (fun j => decide (MIN_KEYS_PER_PAGE < j) &&
            decide (threshold < prefixSize elsz inodes j
              + inodeSize elsz (inodes.getD j INode.new)))
          = (List.range' (i + 1) r).find?
            (fun j => decide (MIN_KEYS_PER_PAGE < j) &&
              decide (threshold < prefixSize elsz inodes j
                + inodeSize elsz (inodes.getD j INode.new))) :=
        List.find?_cons_of_neg _ hpredne
      rw [hr, hfind]
      cases r with
      | zero => rfl
      | succ r' =>
        rw [← prefixSize_succ elsz inodes i (by omega)]
        rw [ih (i + 1) i (by omega) (by omega)]
        cases hfind2 : (List.range' (i + 1) (r' + 1)).find?
            (fun j => decide (MIN_KEYS_PER_PAGE < j) &&
              decide (threshold < prefixSize elsz inodes j
                + inodeSize elsz (inodes.getD j INode.new))) with
        | none =>
          show i + 1 + (r' + 1) - 1 = i + (r' + 1 + 1) - 1
          omega
        | some j => rfl

/-- For a node with more than `MIN_KEYS_PER_PAGE` inodes, the index
computed by `split_index` equals the closed form. -/
theorem splitIndex_eq (n : RNode) (threshold : Nat)
    (h : MIN_KEYS_PER_PAGE < n.inodes.length) :
    (n.splitIndex threshold).1
      = splitIndexActual n.inodes n.pageElementSize threshold := by
  unfold RNode.splitIndex splitIndexActual
  have h0 : pageHeaderSize = prefixSize n.pageElementSize n.inodes 0 := by
    simp [prefixSize]
  rw [h0, splitIndexLoop_spec n.inodes n.pageElementSize threshold
    (n.inodes.length - MIN_KEYS_PER_PAGE) 0 0 (by
      unfold MIN_KEYS_PER_PAGE at h ⊢
      omega) (by omega)]
  rw [List.range_eq_range']
  cases hfind : (List.range' 0 (n.inodes.length - MIN_KEYS_PER_PAGE)).find?
      (fun j => decide (MIN_KEYS_PER_PAGE < j) &&
        decide (threshold < prefixSize n.pageElementSize n.inodes j
          + inodeSize n.pageElementSize (n.inodes.getD j INode.new))) with
  | none =>
    show 0 + (n.inodes.length - MIN_KEYS_PER_PAGE) - 1
      = n.inodes.length - MIN_KEYS_PER_PAGE - 1
    omega
  | some j => rfl

/-- Claim C5 (amended): a node with fewer than `2·MIN_KEYS_PER_PAGE`
inodes, or whose serialized size stays below the page size, is not
split; otherwise, with the threshold computed from the clamped fill
percentage, the node is cut at the first index `i > MIN_KEYS_PER_PAGE`
(not `i ≥` as the specification words it) whose addition would exceed
the threshold (capped at the end of the walk), the remaining entries
move to a new sibling of the same kind, and a parent is created exactly
when the node had none, holding both halves.  The last conjunct is the
five-entry scenario (page size 100, fill percent 1/2): siblings of 2
and 3 entries under a fresh parent. -/
theorem split_two_spec (n : RNode) (fillPercent : Frac) (pageSize : Nat) :
    (n.inodes.length < MIN_KEYS_PER_PAGE * 2 ∨ n.sizeLessThan pageSize = true →
      n.splitTwo fillPercent pageSize = none) ∧
    (¬ (n.inodes.length < MIN_KEYS_PER_PAGE * 2 ∨ n.sizeLessThan pageSize = true) →
      ∃ r, n.splitTwo fillPercent pageSize = some r ∧
        r.self.inodes = n.inodes.take (splitIndexActual n.inodes n.pageElementSize
          (fracMulTrunc (clampFill fillPercent) pageSize)) ∧
        r.next.inodes = n.inodes.drop (splitIndexActual n.inodes n.pageElementSize
          (fracMulTrunc (clampFill fillPercent) pageSize)) ∧
        r.self.isLeaf = n.isLeaf ∧ r.next.isLeaf = n.isLeaf ∧
        r.self.hasParent = true ∧ r.next.hasParent = true ∧
        r.freshParentChildren
          = (if n.hasParent then none else some [r.self.inodes, r.next.inodes])) ∧
    ((fiveNode.splitTwo ⟨1, 2⟩ 100).map (fun r =>
        (r.self.inodes.length, r.next.inodes.length, r.freshParentChildren))
      = some (2, 3, some [fiveNode.inodes.take 2, fiveNode.inodes.drop 2])) := by
  refine ⟨?_, ?_, by decide⟩
  · intro h
    unfold RNode.splitTwo
    rw [if_pos h]
  · intro h
    have hlen : MIN_KEYS_PER_PAGE < n.inodes.length := by
      rcases not_or.mp h with ⟨h1, _⟩
      unfold MIN_KEYS_PER_PAGE at h1 ⊢
      omega
    unfold RNode.splitTwo
    rw [if_neg h]
    refine ⟨_, rfl, ?_, ?_, rfl, rfl, rfl, rfl, ?_⟩
    · simp only [splitIndex_eq n _ hlen]
    · simp only [splitIndex_eq n _ hlen]
    · simp only [splitIndex_eq n _ hlen]

/-- Witness for the amended claim C5 at the five-entry node, page size
100 and fill percent 1/2: the split is allowed and cuts after two
entries. -/
theorem split_two_spec_witness :
    ¬ (fiveNode.inodes.length < MIN_KEYS_PER_PAGE * 2
        ∨ fiveNode.sizeLessThan 100 = true) ∧
      (fiveNode.splitTwo ⟨1, 2⟩ 100).map (fun r => r.self.inodes.length)
        = some 2 := by
  refine ⟨by decide, ?_⟩
  obtain ⟨r, h1, h2, _⟩ := (split_two_spec fiveNode ⟨1, 2⟩ 100).2.1 (by decide)
  rw [h1]
  simp only [Option.map_some']
  rw [h2]
  decide

/-- `cmpChar` answers `lt` exactly on smaller characters. -/
theorem cmpChar_lt_iff (a b : Char) : cmpChar a b = .lt ↔ a < b := by
  unfold cmpChar
  by_cases h1 : a < b
  · simp [h1]
  · by_cases h2 : a = b
    · simp [h1, h2]
    · simp [h1, h2]

/-- `cmpChar` answers `eq` exactly on equal characters. -/
theorem cmpChar_eq_iff (a b : Char) : cmpChar a b = .eq ↔ a = b := by
  unfold cmpChar
  by_cases h1 : a < b
  · have : a ≠ b := ne_of_lt h1
    simp [h1, this]
  · by_cases h2 : a = b
    · simp [h1, h2]
    · simp [h1, h2]

/-- `cmpChar` answers `gt` exactly on larger characters. -/
theorem cmpChar_gt_iff (a b : Char) : cmpChar a b = .gt ↔ b < a := by
  unfold cmpChar
  by_cases h1 : a < b
  · have : ¬ b < a := fun h => absurd (lt_trans h1 h) (lt_irrefl a)
    simp [h1, this]
  · by_cases h2 : a = b
    · have : ¬ b < a := by rw [h2]; exact lt_irrefl b
      simp [h1, h2, this]
    · have : b < a := lt_of_le_of_ne (not_lt.mp h1) (Ne.symm h2)
      simp [h1, h2, this]

/-- `cmpKey` answers `eq` exactly on equal keys. -/
theorem cmpKey_eq_iff : ∀ (a b : List Char), cmpKey a b = .eq ↔ a = b
  | [], [] => by simp [cmpKey]
  | [], _ :: _ => by simp [cmpKey]
  | _ :: _, [] => by simp [cmpKey]
  | x :: xs, y :: ys => by
    unfold cmpKey
    cases hc : cmpChar x y with
    | eq =>
      have hxy : x = y := (cmpChar_eq_iff x y).mp hc
      simp [cmpKey_eq_iff xs ys, hxy]
    | lt =>
      have hne : x ≠ y := by
        intro h
        rw [(cmpChar_eq_iff x y).mpr h] at hc
        cases hc
      simp [hne]
    | gt =>
      have hne : x ≠ y := by
        intro h
        rw [(cmpChar_eq_iff x y).mpr h] at hc
        cases hc
      simp [hne]

/-- `cmpKey` is antisymmetric: `gt` one way is `lt` the other way. -/
theorem cmpKey_gt_iff : ∀ (a b : List Char), cmpKey a b = .gt ↔ cmpKey b a = .lt
  | [], [] => by simp [cmpKey]
  | [], _ :: _ => by simp [cmpKey]
  | _ :: _, [] => by simp [cmpKey]
  | x :: xs, y :: ys => by
    unfold cmpKey
    cases hc : cmpChar x y with
    | eq =>
      have hxy : x = y := (cmpChar_eq_iff x y).mp hc
      have hc' : cmpChar y x = .eq := (cmpChar_eq_iff y x).mpr hxy.symm
      rw [hc']
      exact cmpKey_gt_iff xs ys
    | lt =>
      have hc' : cmpChar y x = .gt :=
        (cmpChar_gt_iff y x).mpr ((cmpChar_lt_iff x y).mp hc)
      rw [hc']
      constructor
      · intro h; cases h
      · intro h; cases h
    | gt =>
      have hc' : cmpChar y x = .lt :=
        (cmpChar_lt_iff y x).mpr ((cmpChar_gt_iff x y).mp hc)
      rw [hc']
      constructor
      · intro _; rfl
      · intro _; rfl

/-- Transitivity of the strict key order. -/
theorem keyLT_trans : ∀ (a b c : List Char), keyLT a b → keyLT b c → keyLT a c
  | [], [], _, h1, _ => by cases h1
  | [], _ :: _, [], _, h2 => by cases h2
  | [], _ :: _, _ :: _, _, _ => rfl
  | _ :: _, [], _, h1, _ => by cases h1
  | _ :: _, _ :: _, [], _, h2 => by cases h2
  | x :: xs, y :: ys, z :: zs, h1, h2 => by
    unfold keyLT cmpKey at h1 h2 ⊢
    cases hxy : cmpChar x y with
    | gt => rw [hxy] at h1; cases h1
    | lt =>
      cases hyz : cmpChar y z with
      | gt => rw [hyz] at h2; cases h2
      | lt =>
        have : x < z := lt_trans ((cmpChar_lt_iff x y).mp hxy)
          ((cmpChar_lt_iff y z).mp hyz)
        rw [(cmpChar_lt_iff x z).mpr this]
      | eq =>
        have hyz' : y = z := (cmpChar_eq_iff y z).mp hyz
        have : x < z := hyz' ▸ (cmpChar_lt_iff x y).mp hxy
        rw [(cmpChar_lt_iff x z).mpr this]
    | eq =>
      rw [hxy] at h1
      have hxy' : x = y := (cmpChar_eq_iff x y).mp hxy
      cases hyz : cmpChar y z with
      | gt => rw [hyz] at h2; cases h2
      | lt =>
        have : x < z := hxy' ▸ (cmpChar_lt_iff y z).mp hyz
        rw [(cmpChar_lt_iff x z).mpr this]
      | eq =>
        rw [hyz] at h2
        have hyz' : y = z := (cmpChar_eq_iff y z).mp hyz
        have hxz : cmpChar x z = .eq := (cmpChar_eq_iff x z).mpr (hxy'.trans hyz')
        rw [hxz]
        exact keyLT_trans xs ys zs h1 h2

/-- Strictly sorted inodes, read positionally. -/
theorem pairwise_keyLT_getD (l : List INode)
    (hs : l.Pairwise (fun a b => keyLT a.key b.key)) :
    ∀ m m', m < m' → m' < l.length →
      keyLT (l.getD m INode.new).key (l.getD m' INode.new).key := by
  intro m m' hmm hm'
  have hm : m < l.length := lt_trans hmm hm'
  rw [List.getD_eq_getElem l _ hm, List.getD_eq_getElem l _ hm']
  exact (List.pairwise_iff_getElem.mp hs) m m' hm hm' hmm

/-- The probe loop of the binary search on a strictly sorted inode
list: starting from a window `[base, base+size)` whose left context is
strictly below the key and whose right context is strictly above, an
`Ok` result points at an entry with the searched key and an `Err`
result is the insertion point. -/
theorem bsearchLoop_spec (l : List INode) (k : List Char)
    (hs : l.Pairwise (fun a b => keyLT a.key b.key)) :
    ∀ (fuel base size : Nat), 0 < size → size ≤ fuel → base + size ≤ l.length →
    (∀ m, m < base → keyLT (l.getD m INode.new).key k) →
    (∀ m, base + size ≤ m → m < l.length → keyLT k (l.getD m INode.new).key) →
    (match bsearchLoop (fun i => cmpKey (l.getD i INode.new).key k) fuel base size with
     | .inl j => j < l.length ∧ (l.getD j INode.new).key = k
     | .inr j => j ≤ l.length ∧ (∀ m, m < j → keyLT (l.getD m INode.new).key k) ∧
         (∀ m, j ≤ m → m < l.length → keyLT k (l.getD m INode.new).key)) := by
  intro fuel
  induction fuel with
  | zero =>
    intro base size h0 hf _ _ _
    exact absurd (Nat.lt_of_lt_of_le h0 hf) (lt_irrefl 0)
  | succ fuel ih =>
    intro base size h0 hf hlen hlow hhigh
    by_cases hsz : size ≤ 1
    · have hsz1 : size = 1 := by omega
      subst hsz1
      simp only [bsearchLoop, if_pos (le_refl 1)]
      cases hc : cmpKey (l.getD base INode.new).key k with
      | eq => exact ⟨by omega, (cmpKey_eq_iff _ _).mp hc⟩
      | lt =>
        refine ⟨by omega, ?_, ?_⟩
        · intro m hm
          by_cases hmb : m < base
          · exact hlow m hmb
          · have hmeq : m = base := by omega
            subst hmeq
            exact hc
        · intro m hm hml
          exact hhigh m (by omega) hml
      | gt =>
        refine ⟨by omega, hlow, ?_⟩
        intro m hm hml
        by_cases hmb : m = base
        · subst hmb
          exact (cmpKey_gt_iff _ _).mp hc
        · exact hhigh m (by omega) hml
    · simp only [bsearchLoop]
      rw [if_neg hsz]
      suffices hgen : ∀ o, cmpKey (l.getD (base + size / 2) INode.new).key k = o →
          (match bsearchLoop (fun i => cmpKey (l.getD i INode.new).key k) fuel
            (if o = Ordering.gt then base else base + size / 2) (size - size / 2) with
           | .inl j => j < l.length ∧ (l.getD j INode.new).key = k
           | .inr j => j ≤ l.length ∧ (∀ m, m < j → keyLT (l.getD m INode.new).key k) ∧
               (∀ m, j ≤ m → m < l.length → keyLT k (l.getD m INode.new).key)) by
        exact hgen _ rfl
      intro o hc
      have hmidlow : keyLT (l.getD (base + size / 2) INode.new).key k →
          ∀ m, m < base + size / 2 → keyLT (l.getD m INode.new).key k := by
        intro hmid m hm
        by_cases hmb : m < base
        · exact hlow m hmb
        · have hlt : keyLT (l.getD m INode.new).key
              (l.getD (base + size / 2) INode.new).key :=
            pairwise_keyLT_getD l hs m _ (by omega) (by omega)
          exact keyLT_trans _ _ _ hlt hmid
      cases o with
      | gt =>
        rw [if_pos rfl]
        refine ih base (size - size / 2) (by omega) (by omega) (by omega) hlow ?_
        intro m hm hml
        by_cases hmor : base + size ≤ m
        · exact hhigh m hmor hml
        · by_cases hmeq : m = base + size / 2
          · subst hmeq
            exact (cmpKey_gt_iff _ _).mp hc
          · have hlt : keyLT (l.getD (base + size / 2) INode.new).key
                (l.getD m INode.new).key :=
              pairwise_keyLT_getD l hs _ m (by omega) hml
            exact keyLT_trans _ _ _ ((cmpKey_gt_iff _ _).mp hc) hlt
      | lt =>
        rw [if_neg (by intro h; cases h)]
        refine ih (base + size / 2) (size - size / 2) (by omega) (by omega)
          (by omega) (hmidlow hc) ?_
        intro m hm hml
        exact hhigh m (by omega) hml
      | eq =>
        rw [if_neg (by intro h; cases h)]
        have hkm : (l.getD (base + size / 2) INode.new).key = k :=
          (cmpKey_eq_iff _ _).mp hc
        refine ih (base + size / 2) (size - size / 2) (by omega) (by omega)
          (by omega) ?_ ?_
        · intro m hm
          by_cases hmb : m < base
          · exact hlow m hmb
          · have hlt : keyLT (l.getD m INode.new).key
                (l.getD (base + size / 2) INode.new).key :=
              pairwise_keyLT_getD l hs m _ (by omega) (by omega)
            rw [hkm] at hlt
            exact hlt
        · intro m hm hml
          exact hhigh m (by omega) hml

/-- Setting the entry just inserted at an index overwrites it. -/
theorem set_insertIdx {α : Type} (y : α) : ∀ (l : List α) (j : Nat) (x : α),
    j ≤ l.length → (l.insertIdx j x).set j y = l.insertIdx j y := by
  intro l
  induction l with
  | nil =>
    intro j x hj
    have hj0 : j = 0 := by simpa using hj
    subst hj0
    rfl
  | cons a as ih =>
    intro j x hj
    cases j with
    | zero => rfl
    | succ j' =>
      simp only [List.insertIdx_succ_cons, List.set_cons_succ]
      exact congrArg (a :: ·) (ih j' x (by simpa using hj))

/-- When the searched key sits at index `j` of a sorted node,
`insertOrReplace` replaces exactly that entry. -/
theorem insertOrReplace_of_found : ∀ (l : List INode) (j : Nat) (e : INode)
    (k : List Char),
    (∀ m, m < j → keyLT (l.getD m INode.new).key k) →
    j < l.length → (l.getD j INode.new).key = k →
    insertOrReplace k e l = l.set j e := by
  intro l
  induction l with
  | nil => intro j e k _ hj _; cases hj
  | cons x xs ih =>
    intro j e k hlow hj hk
    cases j with
    | zero =>
      have hx : cmpKey x.key k = .eq := (cmpKey_eq_iff _ _).mpr hk
      unfold insertOrReplace
      rw [hx]
      rfl
    | succ j' =>
      have hx : cmpKey x.key k = .lt := hlow 0 (Nat.succ_pos j')
      unfold insertOrReplace
      rw [hx]
      show x :: insertOrReplace k e xs = x :: xs.set j' e
      refine congrArg (x :: ·) (ih j' e k ?_ (by simpa using hj) hk)
      intro m hm
      exact hlow (m + 1) (by omega)

/-- When the searched key is absent, with insertion point `j`,
`insertOrReplace` inserts exactly there. -/
theorem insertOrReplace_of_absent : ∀ (l : List INode) (j : Nat) (e : INode)
    (k : List Char),
    (∀ m, m < j → keyLT (l.getD m INode.new).key k) →
    j ≤ l.length →
    (∀ m, j ≤ m → m < l.length → keyLT k (l.getD m INode.new).key) →
    insertOrReplace k e l = l.insertIdx j e := by
  intro l
  induction l with
  | nil =>
    intro j e k _ hj _
    have hj0 : j = 0 := by simpa using hj
    subst hj0
    rfl
  | cons x xs ih =>
    intro j e k hlow hj hhigh
    cases j with
    | zero =>
      have hx : cmpKey x.key k = .gt :=
        (cmpKey_gt_iff _ _).mpr (hhigh 0 (le_refl 0) (Nat.succ_pos _))
      unfold insertOrReplace
      rw [hx]
      rfl
    | succ j' =>
      have hx : cmpKey x.key k = .lt := hlow 0 (Nat.succ_pos j')
      unfold insertOrReplace
      rw [hx]
      show x :: insertOrReplace k e xs = x :: xs.insertIdx j' e
      refine congrArg (x :: ·) (ih j' e k ?_ (by simpa using hj) ?_)
      · intro m hm
        exact hlow (m + 1) (by omega)
      · intro m hm hml
        exact hhigh (m + 1) (by omega) (by simpa using hml)

/-- Members of `insertOrReplace` come from the new entry or the old
list. -/
theorem mem_insertOrReplace : ∀ (l : List INode) (k : List Char) (e y : INode),
    y ∈ insertOrReplace k e l → y = e ∨ y ∈ l := by
  intro l
  induction l with
  | nil =>
    intro k e y hy
    exact Or.inl (List.mem_singleton.mp hy)
  | cons x xs ih =>
    intro k e y hy
    unfold insertOrReplace at hy
    revert hy
    cases h : cmpKey x.key k with
    | lt =>
      intro hy
      rcases List.mem_cons.mp hy with rfl | hmem
      · exact Or.inr (List.mem_cons_self _ _)
      · rcases ih k e y hmem with he | hxs
        · exact Or.inl he
        · exact Or.inr (List.mem_cons_of_mem _ hxs)
    | eq =>
      intro hy
      rcases List.mem_cons.mp hy with rfl | hmem
      · exact Or.inl rfl
      · exact Or.inr (List.mem_cons_of_mem _ hmem)
    | gt =>
      intro hy
      rcases List.mem_cons.mp hy with rfl | hmem
      · exact Or.inl rfl
      · exact Or.inr hmem

/-- `insertOrReplace` with an entry carrying the searched key preserves
strict sortedness. -/
theorem pairwise_insertOrReplace : ∀ (l : List INode) (k : List Char) (e : INode),
    e.key = k → l.Pairwise (fun a b => keyLT a.key b.key) →
    (insertOrReplace k e l).Pairwise (fun a b => keyLT a.key b.key) := by
  intro l
  induction l with
  | nil =>
    intro k e _ _
    simp [insertOrReplace]
  | cons x xs ih =>
    intro k e hek hs
    rcases List.pairwise_cons.mp hs with ⟨hx, hxs⟩
    unfold insertOrReplace
    cases h : cmpKey x.key k with
    | lt =>
      refine List.pairwise_cons.mpr ⟨?_, ih k e hek hxs⟩
      intro y hy
      rcases mem_insertOrReplace xs k e y hy with rfl | hmem
      · show cmpKey x.key y.key = .lt
        rw [hek]
        exact h
      · exact hx y hmem
    | eq =>
      refine List.pairwise_cons.mpr ⟨?_, hxs⟩
      intro y hy
      have hxk : x.key = k := (cmpKey_eq_iff _ _).mp h
      show cmpKey e.key y.key = .lt
      rw [hek, ← hxk]
      exact hx y hy
    | gt =>
      refine List.pairwise_cons.mpr ⟨?_, hs⟩
      intro y hy
      rcases List.mem_cons.mp hy with rfl | hmem
      · show cmpKey e.key y.key = .lt
        rw [hek]
        exact (cmpKey_gt_iff _ _).mp h
      · show cmpKey e.key y.key = .lt
        rw [hek]
        exact keyLT_trans _ _ _ ((cmpKey_gt_iff _ _).mp h) (hx y hmem)

/-- Claim C3: under the preconditions `pgid ≤ meta.pgid` and non-empty
old and new keys, `Node::put` on a strictly sorted node binary-searches
by the old key and produces exactly the sorted-walk insert-or-replace:
the entry whose key equals the old key is overwritten in place, or a
new entry is inserted at the insertion point, and the stored entry
carries the new key, value, pgid and flags; when `old_key = new_key`
the inodes stay strictly sorted.  The last two conjuncts are the
repository's `node_put` scenario: four puts from the empty node yield
`bar/baz/foo` in order with `foo` overwritten (flags `0x02`) and a
serialized size of 76. -/
theorem put_spec (n : RNode) (metaPgid : Nat) (oldKey newKey : List Char)
    (value : Option (List Char)) (pgid flags : Nat)
    (h1 : pgid ≤ metaPgid) (h2 : oldKey ≠ []) (h3 : newKey ≠ [])
    (hs : n.inodes.Pairwise (fun a b => keyLT a.key b.key)) :
    (n.put metaPgid oldKey newKey value pgid flags
      = some { n with inodes :=
          insertOrReplace oldKey (INode.mk flags pgid newKey value) n.inodes }) ∧
    (oldKey = newKey →
      (insertOrReplace oldKey (INode.mk flags pgid newKey value)
        n.inodes).Pairwise (fun a b => keyLT a.key b.key)) ∧
    (((((RNode.mk false [] [] 0 false).put 0 "baz".toList "baz".toList
          (some "2".toList) 0 0).bind
        (fun m => m.put 0 "foo".toList "foo".toList (some "0".toList) 0 0)).bind
        (fun m => m.put 0 "bar".toList "bar".toList (some "1".toList) 0 0)).bind
        (fun m => m.put 0 "foo".toList "foo".toList (some "3".toList) 0 2)
      = some (RNode.mk false
          [INode.mk 0 0 "bar".toList (some "1".toList),
           INode.mk 0 0 "baz".toList (some "2".toList),
           INode.mk 2 0 "foo".toList (some "3".toList)] [] 0 false)) ∧
    ((RNode.mk false
        [INode.mk 0 0 "bar".toList (some "1".toList),
         INode.mk 0 0 "baz".toList (some "2".toList),
         INode.mk 2 0 "foo".toList (some "3".toList)] [] 0 false).size = 76) := by
  refine ⟨?_, ?_, by decide, by decide⟩
  · unfold RNode.put
    rw [if_neg (not_lt.mpr h1)]
    rw [if_neg (by simpa using h2)]
    rw [if_neg (by simpa using h3)]
    by_cases hl0 : n.inodes.length = 0
    · have hnil : n.inodes = [] := List.length_eq_zero.mp hl0
      rw [hnil]
      rfl
    · have hpos : 0 < n.inodes.length := by omega
      have hspec := bsearchLoop_spec n.inodes oldKey hs n.inodes.length 0
        n.inodes.length hpos (le_refl _) (by omega)
        (fun m hm => absurd hm (Nat.not_lt_zero m))
        (fun m hm1 hm2 => absurd hm2 (by omega))
      unfold rustBinarySearchBy
      rw [if_neg hl0]
      rcases hsr : bsearchLoop
          (fun i => cmpKey (n.inodes.getD i INode.new).key oldKey)
          n.inodes.length 0 n.inodes.length with j | j
      · rw [hsr] at hspec
        rcases hspec with ⟨hj, hk⟩
        have hlow : ∀ m, m < j → keyLT (n.inodes.getD m INode.new).key oldKey := by
          intro m hm
          have hlt := pairwise_keyLT_getD n.inodes hs m j hm hj
          rw [hk] at hlt
          exact hlt
        rw [insertOrReplace_of_found n.inodes j _ oldKey hlow hj hk]
      · rw [hsr] at hspec
        rcases hspec with ⟨hj, hlow, hhigh⟩
        rw [insertOrReplace_of_absent n.inodes j _ oldKey hlow hj hhigh,
          ← set_insertIdx _ n.inodes j INode.new hj]
  · intro heq
    exact pairwise_insertOrReplace n.inodes oldKey _ heq.symm hs

/-- Witness for claim C3 at the third put of the `node_put` scenario:
inserting `("bar", "1")` in front of `[("baz", "2"), ("foo", "0")]`. -/
theorem put_spec_witness :
    (RNode.mk false
        [INode.mk 0 0 "baz".toList (some "2".toList),
         INode.mk 0 0 "foo".toList (some "0".toList)] [] 0 false).put 0
        "bar".toList "bar".toList (some "1".toList) 0 0
      = some (RNode.mk false
          [INode.mk 0 0 "bar".toList (some "1".toList),
           INode.mk 0 0 "baz".toList (some "2".toList),
           INode.mk 0 0 "foo".toList (some "0".toList)] [] 0 false) := by
  have h := (put_spec (RNode.mk false
      [INode.mk 0 0 "baz".toList (some "2".toList),
       INode.mk 0 0 "foo".toList (some "0".toList)] [] 0 false) 0
      "bar".toList "bar".toList (some "1".toList) 0 0
      (by decide) (by decide) (by decide) (by decide)).1
  rw [h]
  decide

/-- Claim C5 (counterexample): on six entries of 40 bytes each with
threshold 50 (page size 100, fill percent 1/2), the first index
`i ≥ MIN_KEYS_PER_PAGE` whose addition exceeds the threshold is 2, but
the code splits at index 3 — its guard is `i > MIN_KEYS_PER_PAGE` —
leaving three entries in the left node instead of two. -/
theorem split_index_counterexample :
    splitIndexClaimed sixNode.inodes 16 50 = 2 ∧
      (sixNode.splitTwo ⟨1, 2⟩ 100).map
        (fun r => (r.self.inodes.length, r.next.inodes.length)) = some (3, 3) :=
  ⟨by decide, by decide⟩

/-- Appending the next element to a consecutive range. -/
theorem range'_snoc (s n : Nat) : List.range' s (n + 1) = List.range' s n ++ [s + n] := by
  rw [List.range'_concat]
  simp

/-- If every list element below `initial` lies in `preA`, `preA` holds
no `n`-run and stops strictly before `initial - 1`, then every `n`-run
of the list starts at `initial` or later. -/
theorem run_lower_bound (n initial : Nat) (l preA : List Nat)
    (hsub : ∀ x ∈ l, x < initial → x ∈ preA)
    (hA : noRun preA n)
    (hgap : ∀ a ∈ preA, a + 1 < initial)
    (hn : 1 ≤ n) :
    ∀ q, isRun l q n → initial ≤ q := by
  intro q hq
  by_contra hlt
  push_neg at hlt
  by_cases hall : ∀ j, j < n → q + j < initial
  · exact hA q (fun j hj => hsub _ (hq j hj) (hall j hj))
  · push_neg at hall
    obtain ⟨j0, hj0, hj0i⟩ := hall
    have hmem := hq (initial - 1 - q) (by omega)
    have hpa := hsub _ hmem (by omega)
    have := hgap _ hpa
    omega

/-- A block of fewer than `n` consecutive ids appended to a runless
prefix that stops strictly before it keeps the list runless. -/
theorem noRun_append_block (n : Nat) (preA : List Nat) (initial k : Nat)
    (hA : noRun preA n) (hgap : ∀ a ∈ preA, a + 1 < initial)
    (hk : k < n) (hn : 1 ≤ n) :
    noRun (preA ++ List.range' initial k) n := by
  intro q hq
  have hsub : ∀ x ∈ preA ++ List.range' initial k, x < initial → x ∈ preA := by
    intro x hx hlt
    rcases List.mem_append.mp hx with h | h
    · exact h
    · exact absurd (List.mem_range'_1.mp h).1 (by omega)
  have hge := run_lower_bound n initial _ preA hsub hA hgap hn q hq
  have h0 : q + 0 ∈ List.range' initial k := by
    rcases List.mem_append.mp (hq 0 (by omega)) with h | h
    · exact absurd (hgap _ h) (by omega)
    · exact h
  have hlast : q + (n - 1) ∈ List.range' initial k := by
    rcases List.mem_append.mp (hq (n - 1) (by omega)) with h | h
    · exact absurd (hgap _ h) (by omega)
    · exact h
  have hb0 := List.mem_range'_1.mp h0
  have hb1 := List.mem_range'_1.mp hlast
  omega

/-- `allocate(0)` never finds a run: the break condition
`(id - initial) + 1 == n` cannot reach `0`. -/
theorem allocateScan_zero : ∀ (l : List Nat) (i initial previd : Nat),
    (∀ x ∈ l, 1 < x) → allocateScan 0 l i initial previd = some none := by
  intro l
  induction l with
  | nil => intro i initial previd _; rfl
  | cons id rest ih =>
    intro i initial previd h
    have h1 : ¬ id ≤ 1 := by
      have := h id (List.mem_cons_self _ _)
      omega
    simp only [allocateScan]
    rw [if_neg h1, if_neg (by omega)]
    exact ih _ _ _ (fun x hx => h x (List.mem_cons_of_mem _ hx))

/-- Correctness of the `allocate` scan loop on a strictly sorted
remainder: from any state satisfying the scan invariant it either
finishes without a break and the whole list holds no `n`-run, or it
breaks at index `idx` on the lowest run start `p₀`, with the first
`idx + 1` list entries splitting into the untouched prefix and the run
`p₀, …, p₀ + n - 1`. -/
theorem allocateScan_spec (n : Nat) (hn : 1 ≤ n) :
    ∀ (rest pre : List Nat) (initial previd : Nat),
    (pre ++ rest).Pairwise (fun a b => a < b) →
    (∀ x ∈ pre ++ rest, 1 < x) →
    ScanInv n pre initial previd →
    (allocateScan n rest pre.length initial previd = some none ∧ noRun (pre ++ rest) n) ∨
    (∃ idx p₀, allocateScan n rest pre.length initial previd = some (some (idx, p₀)) ∧
      n ≤ idx + 1 ∧
      (pre ++ rest).take (idx + 1)
        = (pre ++ rest).take (idx + 1 - n) ++ List.range' p₀ n ∧
      (∀ q, isRun (pre ++ rest) q n → p₀ ≤ q)) := by
  intro rest
  induction rest with
  | nil =>
    intro pre initial previd hsort hgt hinv
    left
    refine ⟨rfl, ?_⟩
    rw [List.append_nil]
    rcases hinv with ⟨hpre, _⟩ | ⟨preA, k, hk1, hkn, hpreEq, _, hinit2, hgap, hA⟩
    · subst hpre
      intro q hq
      exact absurd (hq 0 hn) (List.not_mem_nil _)
    · rw [hpreEq]
      exact noRun_append_block n preA initial k hA hgap hkn hn
  | cons id rest' ih =>
    intro pre initial previd hsort hgt hinv
    have hid2 : 1 < id := hgt id (List.mem_append.mpr (Or.inr (List.mem_cons_self _ _)))
    have hcross := (List.pairwise_append.mp hsort).2.2
    rcases hinv with ⟨hpre, hprev⟩ | ⟨preA, k, hk1, hkn, hpreEq, hprevEq, hinit2, hgap, hA⟩
    · subst hpre
      subst hprev
      simp only [List.length_nil, List.nil_append]
      have hcond : (((0 : Nat) = 0 || id - 0 ≠ 1 : Bool)) = true := by
        simp
      by_cases hb : n = 1
      · subst hb
        have heq : allocateScan 1 (id :: rest') 0 initial 0 = some (some (0, id)) := by
          unfold allocateScan
          rw [if_neg (show ¬ id ≤ 1 by omega), if_pos hcond,
            if_pos (show id - id + 1 = 1 by omega)]
        right
        refine ⟨0, id, heq, by omega, by rfl, ?_⟩
        intro q hq
        have hmem := hq 0 (by omega)
        rw [Nat.add_zero] at hmem
        have hpc := (List.pairwise_cons.mp (by simpa using hsort)).1
        rcases List.mem_cons.mp hmem with h | h
        · omega
        · exact le_of_lt (hpc q h)
      · have heq : allocateScan n (id :: rest') 0 initial 0
            = allocateScan n rest' (0 + 1) id id := by
          conv_lhs => unfold allocateScan
          rw [if_neg (show ¬ id ≤ 1 by omega), if_pos hcond,
            if_neg (show ¬ (id - id + 1 = n) by omega)]
        have ihd := ih [id] id id (by simpa using hsort) (by simpa using hgt)
          (Or.inr ⟨[], 1, le_refl 1, by omega, rfl, by omega, hid2,
            (by intro a ha; exact absurd ha (List.not_mem_nil _)),
            fun q hq => absurd (hq 0 hn) (List.not_mem_nil _)⟩)
        simp only [List.singleton_append, List.length_cons, List.length_nil] at ihd
        rw [heq]
        exact ihd
    · have hprevMem : previd ∈ pre := by
        rw [hpreEq]
        exact List.mem_append.mpr (Or.inr (List.mem_range'_1.mpr ⟨by omega, by omega⟩))
      have hprevLt : previd < id := hcross previd hprevMem id (List.mem_cons_self _ _)
      by_cases hcont : id = previd + 1
      · have hcondF : ¬ ((previd = 0 || id - previd ≠ 1 : Bool) = true) := by
          simp only [Bool.or_eq_true, decide_eq_true_eq]
          push_neg
          exact ⟨by omega, by omega⟩
        have hidval : id = initial + k := by omega
        have hlen : pre.length = preA.length + k := by
          rw [hpreEq]
          simp only [List.length_append, List.length_range']
        by_cases hbk : k + 1 = n
        · have heq : allocateScan n (id :: rest') pre.length initial previd
              = some (some (pre.length, initial)) := by
            unfold allocateScan
            rw [if_neg (show ¬ id ≤ 1 by omega), if_neg hcondF,
              if_pos (show id - initial + 1 = n by omega)]
          right
          refine ⟨pre.length, initial, heq, by omega, ?_, ?_⟩
          · have htake1 : (pre ++ id :: rest').take (pre.length + 1) = pre ++ [id] := by
              rw [List.take_append_eq_append_take,
                List.take_of_length_le (by omega),
                show pre.length + 1 - pre.length = 1 from by omega]
              rfl
            have htake2 : (pre ++ id :: rest').take (pre.length + 1 - n) = preA := by
              rw [show pre.length + 1 - n = preA.length from by omega,
                hpreEq, List.append_assoc, List.take_left]
            rw [htake1, htake2, hpreEq, List.append_assoc, hidval, ← range'_snoc, hbk]
          · refine run_lower_bound n initial _ preA ?_ hA hgap hn
            intro x hx hlt
            rcases List.mem_append.mp hx with h | h
            · rw [hpreEq] at h
              rcases List.mem_append.mp h with h' | h'
              · exact h'
              · exact absurd (List.mem_range'_1.mp h').1 (by omega)
            · have hinitMem : initial ∈ pre := by
                rw [hpreEq]
                exact List.mem_append.mpr
                  (Or.inr (List.mem_range'_1.mpr ⟨le_refl _, by omega⟩))
              exact absurd (hcross initial hinitMem x h) (by omega)
        · have hk1n : k + 1 < n := by omega
          have heq : allocateScan n (id :: rest') pre.length initial previd
              = allocateScan n rest' (pre.length + 1) initial id := by
            conv_lhs => unfold allocateScan
            rw [if_neg (show ¬ id ≤ 1 by omega), if_neg hcondF,
              if_neg (show ¬ (id - initial + 1 = n) by omega)]
          have ihd := ih (pre ++ [id]) initial id
            (by rw [show (pre ++ [id]) ++ rest' = pre ++ id :: rest' from by simp]
                exact hsort)
            (by rw [show (pre ++ [id]) ++ rest' = pre ++ id :: rest' from by simp]
                exact hgt)
            (Or.inr ⟨preA, k + 1, by omega, hk1n,
              (by rw [hpreEq, List.append_assoc, hidval, ← range'_snoc]),
              by omega, hinit2, hgap, hA⟩)
          rw [show (pre ++ [id]).length = pre.length + 1 from by simp,
            show (pre ++ [id]) ++ rest' = pre ++ id :: rest' from by simp] at ihd
          rw [heq]
          exact ihd
      · have hcondT : ((previd = 0 || id - previd ≠ 1 : Bool)) = true := by
          simp only [Bool.or_eq_true, decide_eq_true_eq]
          right
          omega
        have heq : allocateScan n (id :: rest') pre.length initial previd
            = allocateScan n rest' (pre.length + 1) id id := by
          conv_lhs => unfold allocateScan
          rw [if_neg (show ¬ id ≤ 1 by omega), if_pos hcondT,
            if_neg (show ¬ (id - id + 1 = n) by omega)]
        have hgap' : ∀ a ∈ pre, a + 1 < id := by
          intro a ha
          rw [hpreEq] at ha
          rcases List.mem_append.mp ha with h | h
          · have := hgap a h
            omega
          · have := List.mem_range'_1.mp h
            omega
        have ihd := ih (pre ++ [id]) id id
          (by rw [show (pre ++ [id]) ++ rest' = pre ++ id :: rest' from by simp]
              exact hsort)
          (by rw [show (pre ++ [id]) ++ rest' = pre ++ id :: rest' from by simp]
              exact hgt)
          (Or.inr ⟨pre, 1, le_refl 1, by omega, rfl, by omega, hid2, hgap',
            (by rw [hpreEq]
                exact noRun_append_block n preA initial k hA hgap hkn hn)⟩)
        rw [show (pre ++ [id]).length = pre.length + 1 from by simp,
          show (pre ++ [id]) ++ rest' = pre ++ id :: rest' from by simp] at ihd
        rw [heq]
        exact ihd

/-- Claim C1: on a strictly sorted freelist of page ids all greater
than 1, `allocate(n)` returns `0` and leaves the freelist unchanged
when no run of `n` consecutive pgids exists or when `n = 0`; otherwise
it returns the lowest starting pgid of a run of `n` consecutive pgids
and removes exactly that run from `ids`, leaving `pending` untouched.
In particular the call sequence of the `freelist_allocate` scenario —
`allocate(3), allocate(1), allocate(3), allocate(2), allocate(1),
allocate(0), allocate(0)` from `ids = [3,4,5,6,7,9,12,13,18]` — returns
`3, 6, 0, 12, 7, 0, 0` leaving `ids = [9,18]`, and `allocate(1)` three
more times returns `9, 18, 0` leaving `ids` empty. -/
theorem allocate_spec (f : FreeList) (n : Nat)
    (hsort : f.ids.Pairwise (fun a b => a < b))
    (hgt : ∀ x ∈ f.ids, 1 < x) :
    (noRun f.ids n → f.allocate n = some (0, f)) ∧
    (n = 0 → f.allocate n = some (0, f)) ∧
    (1 ≤ n → ∀ p, isRun f.ids p n →
      ∃ p₀ f', f.allocate n = some (p₀, f') ∧
        isRun f.ids p₀ n ∧ (∀ q, isRun f.ids q n → p₀ ≤ q) ∧
        f'.ids = f.ids.filter (fun x => ¬ (p₀ ≤ x ∧ x < p₀ + n)) ∧
        f'.pending = f.pending) ∧
    (allocSeq allocFixture [3, 1, 3, 2, 1, 0, 0]
        = some ([3, 6, 0, 12, 7, 0, 0], FreeList.mk [9, 18] [] []) ∧
      allocSeq (FreeList.mk [9, 18] [] []) [1, 1, 1]
        = some ([9, 18, 0], FreeList.mk [] [] [])) := by
  refine ⟨?_, ?_, ?_, by decide, by decide⟩
  · intro hnr
    by_cases hemp : f.ids.length = 0
    · unfold FreeList.allocate
      rw [if_pos hemp]
    · have hn1 : 1 ≤ n := by
        by_contra h
        have h0 : n = 0 := by omega
        subst h0
        exact hnr 0 (fun j hj => absurd hj (Nat.not_lt_zero j))
      have hspec := allocateScan_spec n hn1 f.ids [] 0 0 (by simpa using hsort)
        (by simpa using hgt) (Or.inl ⟨rfl, rfl⟩)
      simp only [List.nil_append, List.length_nil] at hspec
      rcases hspec with ⟨hs, _⟩ | ⟨idx, p₀, hs, _, htake, _⟩
      · unfold FreeList.allocate
        rw [if_neg hemp, hs]
      · exfalso
        refine hnr p₀ (fun j hj => ?_)
        refine List.take_subset (idx + 1) f.ids ?_
        rw [htake]
        exact List.mem_append.mpr (Or.inr (List.mem_range'_1.mpr ⟨by omega, by omega⟩))
  · intro h0
    subst h0
    by_cases hemp : f.ids.length = 0
    · unfold FreeList.allocate
      rw [if_pos hemp]
    · unfold FreeList.allocate
      rw [if_neg hemp, allocateScan_zero f.ids 0 0 0 hgt]
  · intro hn1 p hp
    have hemp : ¬ f.ids.length = 0 := by
      intro h
      rw [List.length_eq_zero] at h
      have hmem := hp 0 hn1
      rw [h] at hmem
      exact absurd hmem (List.not_mem_nil _)
    have hspec := allocateScan_spec n hn1 f.ids [] 0 0 (by simpa using hsort)
      (by simpa using hgt) (Or.inl ⟨rfl, rfl⟩)
    simp only [List.nil_append, List.length_nil] at hspec
    rcases hspec with ⟨_, hnr⟩ | ⟨idx, p₀, hs, hb, htake, hmin⟩
    · exact absurd hp (hnr p)
    · have hrun0 : isRun f.ids p₀ n := by
        intro j hj
        refine List.take_subset (idx + 1) f.ids ?_
        rw [htake]
        exact List.mem_append.mpr (Or.inr (List.mem_range'_1.mpr ⟨by omega, by omega⟩))
      have hids : (if idx + 1 = n then f.ids.drop (idx + 1)
          else f.ids.take (idx - n + 1) ++ f.ids.drop (idx + 1))
          = f.ids.take (idx + 1 - n) ++ f.ids.drop (idx + 1) := by
        by_cases hfast : idx + 1 = n
        · rw [if_pos hfast, show idx + 1 - n = 0 from by omega]
          rfl
        · rw [if_neg hfast, show idx - n + 1 = idx + 1 - n from by omega]
      have hfull : f.ids = (f.ids.take (idx + 1 - n) ++ List.range' p₀ n)
          ++ f.ids.drop (idx + 1) := by
        have h := (List.take_append_drop (idx + 1) f.ids).symm
        rw [htake] at h
        exact h
      have hsort2 : ((f.ids.take (idx + 1 - n) ++ List.range' p₀ n)
          ++ f.ids.drop (idx + 1)).Pairwise (fun a b => a < b) := by
        rw [← hfull]
        exact hsort
      obtain ⟨hTM, _, hcrossD⟩ := List.pairwise_append.mp hsort2
      obtain ⟨_, _, hcrossTM⟩ := List.pairwise_append.mp hTM
      have hTlt : ∀ t ∈ f.ids.take (idx + 1 - n), t < p₀ :=
        fun t ht => hcrossTM t ht p₀ (List.mem_range'_1.mpr ⟨le_refl _, by omega⟩)
      have hDgt : ∀ d ∈ f.ids.drop (idx + 1), p₀ + n ≤ d := by
        intro d hd
        have := hcrossD (p₀ + (n - 1))
          (List.mem_append.mpr (Or.inr (List.mem_range'_1.mpr ⟨by omega, by omega⟩)))
          d hd
        omega
      have hfT : (f.ids.take (idx + 1 - n)).filter
          (fun x => ¬ (p₀ ≤ x ∧ x < p₀ + n)) = f.ids.take (idx + 1 - n) := by
        refine List.filter_eq_self.mpr ?_
        intro a ha
        simp only [decide_eq_true_eq]
        have := hTlt a ha
        omega
      have hfM : (List.range' p₀ n).filter
          (fun x => ¬ (p₀ ≤ x ∧ x < p₀ + n)) = [] := by
        refine List.filter_eq_nil.mpr ?_
        intro a ha
        simp only [decide_eq_true_eq]
        have := List.mem_range'_1.mp ha
        omega
      have hfD : (f.ids.drop (idx + 1)).filter
          (fun x => ¬ (p₀ ≤ x ∧ x < p₀ + n)) = f.ids.drop (idx + 1) := by
        refine List.filter_eq_self.mpr ?_
        intro a ha
        simp only [decide_eq_true_eq]
        have := hDgt a ha
        omega
      have hfilter : f.ids.take (idx + 1 - n) ++ f.ids.drop (idx + 1)
          = f.ids.filter (fun x => ¬ (p₀ ≤ x ∧ x < p₀ + n)) := by
        conv_rhs => rw [hfull]
        rw [List.filter_append, List.filter_append, hfT, hfM, hfD, List.append_nil]
      have halloc : f.allocate n = some (p₀, FreeList.mk
          (f.ids.take (idx + 1 - n) ++ f.ids.drop (idx + 1)) f.pending
          ((List.range n).foldl (fun c i => setRemove c i) f.cache)) := by
        simp only [FreeList.allocate, if_neg hemp, hs, hids]
      exact ⟨p₀, _, halloc, hrun0, hmin, hfilter, rfl⟩

/-- Witness for the allocate specification at the `freelist_allocate`
fixture with `n = 3`. -/
theorem allocate_spec_witness :
    (noRun allocFixture.ids 3 → allocFixture.allocate 3 = some (0, allocFixture)) ∧
    ((3 : Nat) = 0 → allocFixture.allocate 3 = some (0, allocFixture)) ∧
    (1 ≤ 3 → ∀ p, isRun allocFixture.ids p 3 →
      ∃ p₀ f', allocFixture.allocate 3 = some (p₀, f') ∧
        isRun allocFixture.ids p₀ 3 ∧ (∀ q, isRun allocFixture.ids q 3 → p₀ ≤ q) ∧
        f'.ids = allocFixture.ids.filter (fun x => ¬ (p₀ ≤ x ∧ x < p₀ + 3)) ∧
        f'.pending = allocFixture.pending) ∧
    (allocSeq allocFixture [3, 1, 3, 2, 1, 0, 0]
        = some ([3, 6, 0, 12, 7, 0, 0], FreeList.mk [9, 18] [] []) ∧
      allocSeq (FreeList.mk [9, 18] [] []) [1, 1, 1]
        = some ([9, 18, 0], FreeList.mk [] [] [])) :=
  allocate_spec allocFixture 3 (by decide) (by decide)

end BoltRust
